import Mathlib

set_option maxHeartbeats 1000000

/-!
Verification of the StrepHit pattern-based normalization engine
(`strephit/commons/date_normalizer.py`): the match engine
(`DateNormalizer.normalize_one`, `DateNormalizer.normalize_many`), the
pattern compiler (`DateNormalizer.__init__`), and the token-realignment
algorithm (`normalize_numerical_fes`).

Python strings are modelled as lists of characters, tokens as Python lists
of string fields (indexing `x[2]`, `x[-1]`, `x[-2]` is modelled with
`getD` on in-range indices), compiled regular expressions as abstract
matcher functions (`search` returning the first match span, `finditer`
returning the list of non-overlapping match spans), and the `eval` of a
transform expression as an abstract function of the match span.
-/

namespace StrepHit

/-- A Python string: a list of characters. -/
abbrev Str := List Char

/-- A token: a Python list of string fields (sentence id, placeholder,
surface text, entity marker, surface text again, POS tag, IOB tag). -/
abbrev Token := List Str

/-- Python `x[k]` on a token, for in-range `k`. -/
def pyGet (t : Token) (k : Nat) : Str := t.getD k []

/-- Python `x[-1]` on a token (its last field, the IOB tag). -/
def pyTagOf (t : Token) : Str := t.getD (t.length - 1) []

/-- Python `x[-2]` on a token (its second to last field, the POS tag). -/
def pyPosOf (t : Token) : Str := t.getD (t.length - 2) []

/-- Python `l[i:j]`. -/
def pySlice {α : Type} (l : List α) (i j : Nat) : List α := (l.drop i).take (j - i)

/-- Python `s[a:b]` on a string. -/
def pySubstr (s : Str) (a b : Nat) : Str := (s.take b).drop a

/-- Python `s.lower()`. -/
def pyLower (s : Str) : Str := s.map Char.toLower

/-- The tail part of Python `' '.join`: every further element is preceded
by one space. -/
def pyJoinTail : List Str → Str
  | [] => []
  | s :: rest => ' ' :: (s ++ pyJoinTail rest)

/-- Python `' '.join(l)`. -/
def pyJoin : List Str → Str
  | [] => []
  | s :: rest => s ++ pyJoinTail rest

/-- The surface text (field index 2) of a token. -/
def surf (t : Token) : Str := pyGet t 2

/-- `' '.join(x[2] for x in tokens)`: the sentence a token list rebuilds to. -/
def sentenceOf (tokens : List Token) : Str := pyJoin (tokens.map surf)

/-- The IOB tag sentinel `'O'`. -/
def tagO : Str := "O".toList

/-- A compiled rule of the normalizer: the match behaviour of the compiled
regular expression (`search` for the first match span, `finditer` for all
non-overlapping match spans, both on a given text) together with the
evaluation of its transform expression on a match, modelled abstractly as
a function of the match span. -/
structure NormRule where
  search : Str → Option (Nat × Nat)
  finditer : Str → List (Nat × Nat)
  transform : Nat × Nat → Str

/-- `DateNormalizer.regexes`: categories in iteration order, each with its
list of compiled rules in declaration order. -/
abbrev Rules := List (Str × List NormRule)

/-- The rules of all categories flattened in iteration order, each paired
with its category. -/
def flatRules (rules : Rules) : List (Str × NormRule) :=
  rules.flatMap (fun cr => cr.2.map (fun r => (cr.1, r)))

/-- `DateNormalizer._process_match` at `first_position = 0`, as used by
`normalize_one`: the span, the category and the evaluated transform. -/
def processMatch (category : Str) (r : NormRule) (span : Nat × Nat) :
    (Int × Int) × Option Str × Option Str :=
  ((Int.ofNat span.1, Int.ofNat span.2), some category, some (r.transform span))

/-- The conflict policy string `'first'`. -/
def strFirst : Str := "first".toList

/-- The conflict policy string `'longest'`. -/
def strLongest : Str := "longest".toList

/-- The conflict policy string `'shortest'`. -/
def strShortest : Str := "shortest".toList

/-- The scanning loop of `DateNormalizer.normalize_one`: iterate over all
rules; on a match, return it at once under `'first'`, otherwise replace the
best candidate `(match, length, category, rule)` exactly when there is none
yet, or the new length is strictly greater under `'longest'`, or strictly
less under `'shortest'`.  After the scan, return the sentinel
`((-1, -1), None, None)` when no rule matched, else the processed best. -/
def normalizeOneLoop (expression conflict : Str) :
    List (Str × NormRule) → Option ((Nat × Nat) × Nat × Str × NormRule) →
    (Int × Int) × Option Str × Option Str
  | [], none => ((-1, -1), none, none)
  | [], some (sp, _, cat, r) => processMatch cat r sp
  | (category, r) :: rest, best =>
    match r.search expression with
    | none => normalizeOneLoop expression conflict rest best
    | some m =>
      if conflict = strFirst then processMatch category r m
      else
        match best with
        | none => normalizeOneLoop expression conflict rest (some (m, m.2 - m.1, category, r))
        | some (bsp, bn, bcat, br) =>
          if conflict = strLongest ∧ m.2 - m.1 > bn ∨ conflict = strShortest ∧ m.2 - m.1 < bn
          then normalizeOneLoop expression conflict rest (some (m, m.2 - m.1, category, r))
          else normalizeOneLoop expression conflict rest (some (bsp, bn, bcat, br))

/-- `DateNormalizer.normalize_one`: lower-case the expression once, then
scan all rules with the given conflict policy. -/
def normalizeOne (rules : Rules) (expression conflict : Str) :
    (Int × Int) × Option Str × Option Str :=
  normalizeOneLoop (pyLower expression) conflict (flatRules rules) none

/-- Modelled from the spec (refinement spec for `normalize_one`): the
candidate matches, in category-then-rule order, of all rules that match
the expression. -/
def candidateList (flat : List (Str × NormRule)) (expression : Str) :
    List ((Nat × Nat) × Str × NormRule) :=
  flat.filterMap (fun cr => (cr.2.search expression).map (fun sp => (sp, cr.1, cr.2)))

/-- Modelled from the spec (refinement spec for `normalize_one` under
`'longest'`): keep the candidate whose span length is strictly greater
than the best seen so far, so that the first found wins ties. -/
def specPickLongest (cands : List ((Nat × Nat) × Str × NormRule)) :
    Option ((Nat × Nat) × Str × NormRule) :=
  cands.foldl
    (fun best c =>
      match best with
      | none => some c
      | some b => if c.1.2 - c.1.1 > b.1.2 - b.1.1 then some c else some b)
    none

/-- Modelled from the spec (refinement spec for `normalize_one` under
`'shortest'`): keep the candidate whose span length is strictly less
than the best seen so far, so that the first found wins ties. -/
def specPickShortest (cands : List ((Nat × Nat) × Str × NormRule)) :
    Option ((Nat × Nat) × Str × NormRule) :=
  cands.foldl
    (fun best c =>
      match best with
      | none => some c
      | some b => if c.1.2 - c.1.1 < b.1.2 - b.1.1 then some c else some b)
    none

/-- One rule pass of `DateNormalizer.normalize_many`: the cursor before the
pass, the relative match spans `finditer` found in the remaining suffix,
and the cursor after the pass (`position + max(0, relative ends)`). -/
structure RulePass where
  prePos : Nat
  rel : List (Nat × Nat)
  postPos : Nat
deriving DecidableEq

/-- The absolute-offset spans a rule pass yields (`cursor + relative offset`). -/
def RulePass.absSpans (p : RulePass) : List (Nat × Nat) :=
  p.rel.map (fun m => (p.prePos + m.1, p.prePos + m.2))

/-- The scanning loop of `DateNormalizer.normalize_many`: for each rule in
order, run `finditer` on the suffix of the expression from the current
cursor, then advance the cursor by the maximum relative end offset seen
(`end` starts at 0, so the cursor stays put on a pass with no match). -/
def manyScan (expression : Str) :
    List (Str × NormRule) → Nat → List ((Str × NormRule) × RulePass)
  | [], _ => []
  | cr :: rest, position =>
    let ms := cr.2.finditer (expression.drop position)
    let newPos := position + ms.foldl (fun e m => max e m.2) 0
    (cr, { prePos := position, rel := ms, postPos := newPos }) ::
      manyScan expression rest newPos

/-- `DateNormalizer.normalize_many`: lower-case the expression once, then
yield, pass by pass, each match as `((cursor + start, cursor + end),
category, result)`. -/
def normalizeMany (rules : Rules) (expression : Str) :
    List ((Nat × Nat) × Str × Str) :=
  (manyScan (pyLower expression) (flatRules rules) 0).flatMap
    (fun p => p.2.rel.map
      (fun m => ((p.2.prePos + m.1, p.2.prePos + m.2), p.1.1, p.1.2.transform m)))

/-- The two assertion failures `normalize_numerical_fes` can raise: the
ambiguous-tag assertion (line 159, `Cannot decide which tag to use`) and
the reconstruction assertion (line 167, `Failed to rebuild sentence`). -/
inductive NormError where
  | ambiguousTag : NormError
  | rebuildFailed : NormError
deriving DecidableEq

deriving instance DecidableEq for Except

/-- The first-token search of `normalize_numerical_fes` (lines 140 to 146):
walk the tokens accumulating `len(x[2]) + 1`, stopping at the token whose
accumulated offset equals `start`; `none` when the tokens are exhausted
(the match is then skipped as a sub-token). -/
def findStart (start : Nat) : List Token → Nat → Nat → Option Nat
  | [], _, _ => none
  | t :: rest, cursor, i =>
    if cursor = start then some i
    else findStart start rest (cursor + (surf t).length + 1) (i + 1)

/-- The last-token search of `normalize_numerical_fes` (lines 149 to 151):
starting from `j = i + 1`, increment `j` while the space-join of
`tokens[i:j]`'s surface texts differs from the matched substring and
`j < len(tokens)`; the final value of `j` is returned. -/
def findEndGo (tokens : List Token) (i : Nat) (original : Str) :
    Nat → Nat → Nat
  | 0, j => j
  | fuel + 1, j =>
    if pyJoin ((pySlice tokens i j).map surf) = original then j
    else findEndGo tokens i original fuel (j + 1)

/-- The last-token search, entered at `j = i + 1`; the fuel
`tokens.length - j` realizes the loop bound `j < len(tokens)`: while fuel
remains, `j < len(tokens)` holds and only the join test is checked. -/
def findEnd (tokens : List Token) (i : Nat) (original : Str) (j : Nat) : Nat :=
  findEndGo tokens i original (tokens.length - j) j

/-- `set(x[-1] for x in tokens[i:j] if x[-1] != 'O')` of line 158, as the
deduplicated list of distinct non-`'O'` tag values of the covered tokens. -/
def dedupTags (covered : List Token) : List Str :=
  ((covered.map pyTagOf).filter (fun t => t ≠ tagO)).dedup

/-- Lines 159 to 161: assert that there are at most one distinct non-`'O'`
tag among the covered tokens (`none` models the assertion failure), and
resolve the tag as that value, or `'O'` when there is none. -/
def resolveTag (covered : List Token) : Option Str :=
  if (dedupTags covered).length ≤ 1 then some ((dedupTags covered).headD tagO)
  else none

/-- The replacement token of line 165:
`[sentence_id, '-', original, 'ENT', original, tokens[0][-2], tag]`. -/
def mkMergedToken (sentence_id original pos0 tag : Str) : Token :=
  [sentence_id, "-".toList, original, "ENT".toList, original, pos0, tag]

/-- One iteration of the loop of `normalize_numerical_fes` (lines 136 to
167) for one match span: take `original = sentence[start:end]`, locate the
first and last covered tokens, skip the match when either search exhausts
the tokens, resolve the tag (fatal when ambiguous), replace `tokens[i:j]`
with the single merged token, and assert that the new token list still
rebuilds the sentence. -/
def stepMatch (sentence_id sentence : Str) (tokens : List Token)
    (span : Nat × Nat) : Except NormError (List Token) :=
  match findStart span.1 tokens 0 0 with
  | none => .ok tokens
  | some i =>
    if findEnd tokens i (pySubstr sentence span.1 span.2) (i + 1) = tokens.length
    then .ok tokens
    else
      match resolveTag (pySlice tokens i
          (findEnd tokens i (pySubstr sentence span.1 span.2) (i + 1))) with
      | none => .error .ambiguousTag
      | some tag =>
        if sentenceOf (tokens.take i ++
            [mkMergedToken sentence_id (pySubstr sentence span.1 span.2)
              (pyPosOf (tokens.headD [])) tag] ++
            tokens.drop (findEnd tokens i (pySubstr sentence span.1 span.2) (i + 1))) =
            sentence
        then .ok (tokens.take i ++
            [mkMergedToken sentence_id (pySubstr sentence span.1 span.2)
              (pyPosOf (tokens.headD [])) tag] ++
            tokens.drop (findEnd tokens i (pySubstr sentence span.1 span.2) (i + 1)))
        else .error .rebuildFailed

/-- `normalize_numerical_fes`: rebuild the sentence from the tokens, run
`normalize_many` over it, and process each match span in emission order
against the current token list. -/
def normalizeNumericalFes (rules : Rules) (sentence_id : Str)
    (tokens : List Token) : Except NormError (List Token) :=
  let sentence := sentenceOf tokens
  (normalizeMany rules sentence).foldlM
    (fun tks m => stepMatch sentence_id sentence tks m.1) tokens

/-- One fold step of the spec-side selection under `'longest'`. -/
def pickLongest (best : Option ((Nat × Nat) × Str × NormRule))
    (c : (Nat × Nat) × Str × NormRule) : Option ((Nat × Nat) × Str × NormRule) :=
  match best with
  | none => some c
  | some b => if c.1.2 - c.1.1 > b.1.2 - b.1.1 then some c else some b

/-- One fold step of the spec-side selection under `'shortest'`. -/
def pickShortest (best : Option ((Nat × Nat) × Str × NormRule))
    (c : (Nat × Nat) × Str × NormRule) : Option ((Nat × Nat) × Str × NormRule) :=
  match best with
  | none => some c
  | some b => if c.1.2 - c.1.1 < b.1.2 - b.1.1 then some c else some b

/-- The lifting of a spec-side accumulator to the code's accumulator,
which also caches the span length. -/
def liftAcc : Option ((Nat × Nat) × Str × NormRule) →
    Option ((Nat × Nat) × Nat × Str × NormRule)
  | none => none
  | some (sp, cat, r) => some (sp, sp.2 - sp.1, cat, r)

/-- The sentinel-or-processed-best read-out shared by the code and the spec. -/
def readOut : Option ((Nat × Nat) × Str × NormRule) →
    (Int × Int) × Option Str × Option Str
  | none => ((-1, -1), none, none)
  | some (sp, cat, r) => processMatch cat r sp

/-- Well-formedness of the span list a compiled regular expression's
`finditer` returns on any text: each span has `start ≤ end`, and
consecutive spans are in order and non-overlapping. -/
def SpanChain (l : List (Nat × Nat)) : Prop :=
  (∀ m ∈ l, m.1 ≤ m.2) ∧ l.Chain' (fun a b => a.2 ≤ b.1)

/-- Modelled from the spec (refinement spec for tag resolution): a set of
distinct non-`'O'` tags with zero elements resolves to `'O'`, with exactly
one element resolves to that element, and with more than one element is a
fatal ambiguity. -/
def specTagResolution : List Str → Option Str
  | [] => some tagO
  | [t] => some t
  | _ :: _ :: _ => none

/-- A literal-text rule for concrete runs: it matches the given spans on
exactly the given text. -/
def litRule (key : Str) (spans : List (Nat × Nat)) : NormRule :=
  { search := fun s => if s = key then spans.head? else none
    finditer := fun s => if s = key then spans else []
    transform := fun _ => [] }

def tokBorn : Token :=
  ["s1".toList, "-".toList, "born".toList, "ENT".toList, "born".toList,
    "VBD".toList, "O".toList]

def tok1920 : Token :=
  ["s1".toList, "-".toList, "1920".toList, "ENT".toList, "1920".toList,
    "CD".toList, "DATE".toList]

def tok1920O : Token :=
  ["s1".toList, "-".toList, "1920".toList, "ENT".toList, "1920".toList,
    "CD".toList, "O".toList]

def tokX : Token :=
  ["s1".toList, "-".toList, "x".toList, "ENT".toList, "x".toList,
    "NN".toList, "O".toList]

def tok12 : Token :=
  ["s1".toList, "-".toList, "12".toList, "ENT".toList, "12".toList,
    "CD".toList, "DATE".toList]

def tokMarch : Token :=
  ["s1".toList, "-".toList, "march".toList, "ENT".toList, "march".toList,
    "NNP".toList, "TIME".toList]

/-- The merged token produced for the span "1920" of "born 1920 x": POS
field copied from `tokens[0]` (namely "VBD"), resolved tag `'O'`. -/
def tokMerged1920 : Token :=
  ["s1".toList, "-".toList, "1920".toList, "ENT".toList, "1920".toList,
    "VBD".toList, "O".toList]

def demoRules2 : Rules := [("date".toList, [litRule ("born 1920".toList) [(5, 9)]])]

def demoRules3 : Rules :=
  [("date".toList, [litRule ("born 1920 x".toList) [(5, 9)]])]

/-- The space-join weight of a token list: each token contributes its
surface length plus one joining space. -/
def weightOf (l : List Token) : Nat := (l.map (fun t => (surf t).length + 1)).sum

/-- The cumulative start offsets the cursor walk of `findStart` visits:
one entry per token. -/
def tokenStarts : List Token → Nat → List Nat
  | [], _ => []
  | t :: rest, c => c :: tokenStarts rest (c + (surf t).length + 1)

/-- The merged-span invariant carried from a merge to the end of the run:
no token start lies strictly inside the merged span, and while both ends
of the span remain token starts, the token sitting at the span's start is
a merged token for exactly the original matched substring, with the
invariant POS field. -/
def RegionOK (s tgt : Nat) (sid orig v : Str) (toks : List Token) : Prop :=
  (∀ c ∈ tokenStarts toks 0, ¬(s < c ∧ c < tgt)) ∧
  (s ∈ tokenStarts toks 0 → tgt ∈ tokenStarts toks 0 →
    ∀ k, (tokenStarts toks 0).get? k = some s →
      ∃ tg, toks.get? k = some (mkMergedToken sid orig v tg))

/-- The reflexive-transitive closure of successful match steps over a
fixed sentence. -/
inductive OkSteps (sid S : Str) : List Token → List Token → Prop where
  | refl : ∀ toks, OkSteps sid S toks toks
  | step : ∀ toks mid out m, stepMatch sid S toks m = .ok mid →
      OkSteps sid S mid out → OkSteps sid S toks out

lemma pyJoinTail_append (a b : List Str) :
    pyJoinTail (a ++ b) = pyJoinTail a ++ pyJoinTail b := by
  induction a with
  | nil => rfl
  | cons x xs ih => simp [pyJoinTail, ih]

lemma pyJoin_append {a : List Str} (b : List Str) (h : a ≠ []) :
    pyJoin (a ++ b) = pyJoin a ++ pyJoinTail b := by
  cases a with
  | nil => exact absurd rfl h
  | cons x xs => simp [pyJoin, pyJoinTail_append]

lemma pyJoinTail_eq_cons {b : List Str} (h : b ≠ []) :
    pyJoinTail b = ' ' :: pyJoin b := by
  cases b with
  | nil => exact absurd rfl h
  | cons y ys => rfl

/-- Replacing a nonempty middle block by a single token with the block's
joined surface text leaves the rebuilt sentence unchanged. -/
lemma sentenceOf_merge (A B C : List Token) (T : Token)
    (hB : B ≠ []) (hT : surf T = pyJoin (B.map surf)) :
    sentenceOf (A ++ [T] ++ C) = sentenceOf (A ++ (B ++ C)) := by
  unfold sentenceOf
  have hB' : B.map surf ≠ [] := by simpa using hB
  cases A with
  | nil =>
    simp only [List.nil_append, List.map_append]
    rw [pyJoin_append (C.map surf) (show ([T].map surf : List Str) ≠ [] by simp),
      pyJoin_append (C.map surf) hB']
    simp [pyJoin, pyJoinTail, hT]
  | cons x xs =>
    simp only [List.cons_append, List.map_cons, List.map_append, pyJoin,
      pyJoinTail_append, List.append_assoc]
    rw [pyJoinTail_eq_cons hB', hT]
    simp [pyJoinTail]

lemma findStart_bounds (start : Nat) :
    ∀ (toks : List Token) (cursor i0 i : Nat),
      findStart start toks cursor i0 = some i → i0 ≤ i ∧ i - i0 < toks.length := by
  intro toks
  induction toks with
  | nil => intro cursor i0 i h; simp [findStart] at h
  | cons t rest ih =>
    intro cursor i0 i h
    rw [findStart] at h
    by_cases hc : cursor = start
    · rw [if_pos hc] at h
      injection h with h2
      simp only [List.length_cons]
      omega
    · rw [if_neg hc] at h
      have := ih _ _ _ h
      simp only [List.length_cons]
      omega

lemma findEndGo_ge (tokens : List Token) (i : Nat) (original : Str) :
    ∀ (fuel j : Nat), j ≤ findEndGo tokens i original fuel j := by
  intro fuel
  induction fuel with
  | zero => intro j; simp [findEndGo]
  | succ f ih =>
    intro j
    rw [findEndGo]
    by_cases h : pyJoin ((pySlice tokens i j).map surf) = original
    · rw [if_pos h]
    · rw [if_neg h]
      exact le_trans (by omega) (ih (j + 1))

lemma findEndGo_le (tokens : List Token) (i : Nat) (original : Str) :
    ∀ (fuel j : Nat), findEndGo tokens i original fuel j ≤ j + fuel := by
  intro fuel
  induction fuel with
  | zero => intro j; simp [findEndGo]
  | succ f ih =>
    intro j
    rw [findEndGo]
    by_cases h : pyJoin ((pySlice tokens i j).map surf) = original
    · rw [if_pos h]; omega
    · rw [if_neg h]
      exact le_trans (ih (j + 1)) (by omega)

lemma findEndGo_join (tokens : List Token) (i : Nat) (original : Str) :
    ∀ (fuel j : Nat), j + fuel = tokens.length →
      findEndGo tokens i original fuel j ≠ tokens.length →
      pyJoin ((pySlice tokens i (findEndGo tokens i original fuel j)).map surf) =
        original := by
  intro fuel
  induction fuel with
  | zero =>
    intro j hlen hne
    rw [findEndGo] at hne ⊢
    omega
  | succ f ih =>
    intro j hlen hne
    rw [findEndGo] at hne ⊢
    by_cases h : pyJoin ((pySlice tokens i j).map surf) = original
    · rw [if_pos h]
      exact h
    · rw [if_neg h] at hne ⊢
      exact ih (j + 1) (by omega) hne

lemma findEnd_ge (tokens : List Token) (i : Nat) (original : Str) (j0 : Nat) :
    j0 ≤ findEnd tokens i original j0 :=
  findEndGo_ge tokens i original _ j0

lemma findEnd_le (tokens : List Token) (i : Nat) (original : Str) (j0 : Nat)
    (h : j0 ≤ tokens.length) : findEnd tokens i original j0 ≤ tokens.length := by
  have := findEndGo_le tokens i original (tokens.length - j0) j0
  unfold findEnd
  omega

lemma findEnd_join (tokens : List Token) (i : Nat) (original : Str) (j0 : Nat)
    (h : j0 ≤ tokens.length)
    (hne : findEnd tokens i original j0 ≠ tokens.length) :
    pyJoin ((pySlice tokens i (findEnd tokens i original j0)).map surf) =
      original :=
  findEndGo_join tokens i original (tokens.length - j0) j0 (by omega) hne

lemma surf_mkMergedToken (sid o p t : Str) : surf (mkMergedToken sid o p t) = o := rfl

lemma pySlice_ne_nil {l : List Token} {i j : Nat} (hi : i < l.length) (hij : i < j) :
    pySlice l i j ≠ [] := by
  unfold pySlice
  intro h
  rcases List.take_eq_nil_iff.mp h with h1 | h1
  · omega
  · rw [List.drop_eq_nil_iff] at h1
    omega

lemma take_slice_drop (l : List Token) (i j : Nat) (hij : i ≤ j) :
    l.take i ++ (pySlice l i j ++ l.drop j) = l := by
  unfold pySlice
  obtain ⟨k, rfl⟩ : ∃ k, j = i + k := ⟨j - i, by omega⟩
  rw [show i + k - i = k by omega, List.drop_take_append_drop, List.take_append_drop]

/-- The core step lemma: on a token list that rebuilds to `sentence`, one
match step never fails the reconstruction assertion, and a successful step
preserves the rebuilt sentence and never lengthens the token list. -/
lemma stepMatch_props (sid S : Str) (tks : List Token) (m : Nat × Nat)
    (hS : sentenceOf tks = S) :
    stepMatch sid S tks m ≠ .error .rebuildFailed ∧
    (∀ r, stepMatch sid S tks m = .ok r → sentenceOf r = S ∧ r.length ≤ tks.length) := by
  unfold stepMatch
  cases hfs : findStart m.1 tks 0 0 with
  | none =>
    constructor
    · intro h
      exact Except.noConfusion h
    · intro r hr
      cases hr
      exact ⟨hS, le_refl _⟩
  | some i =>
    have hi := findStart_bounds m.1 tks 0 0 i hfs
    simp only []
    by_cases hjl : findEnd tks i (pySubstr S m.1 m.2) (i + 1) = tks.length
    · rw [if_pos hjl]
      constructor
      · intro h
        exact Except.noConfusion h
      · intro r hr
        cases hr
        exact ⟨hS, le_refl _⟩
    · rw [if_neg hjl]
      have hjge : i + 1 ≤ findEnd tks i (pySubstr S m.1 m.2) (i + 1) :=
        findEnd_ge tks i (pySubstr S m.1 m.2) (i + 1)
      have hjle : findEnd tks i (pySubstr S m.1 m.2) (i + 1) ≤ tks.length :=
        findEnd_le tks i (pySubstr S m.1 m.2) (i + 1) (by omega)
      have hjoin := findEnd_join tks i (pySubstr S m.1 m.2) (i + 1) (by omega) hjl
      cases htag : resolveTag (pySlice tks i (findEnd tks i (pySubstr S m.1 m.2) (i + 1))) with
      | none =>
        dsimp only
        constructor
        · intro h
          injection h with h2
          exact NormError.noConfusion h2
        · intro r hr
          exact Except.noConfusion hr
      | some tag =>
        have hnew : sentenceOf (tks.take i ++
            [mkMergedToken sid (pySubstr S m.1 m.2) (pyPosOf (tks.headD [])) tag] ++
            tks.drop (findEnd tks i (pySubstr S m.1 m.2) (i + 1))) = S := by
          rw [sentenceOf_merge (tks.take i)
              (pySlice tks i (findEnd tks i (pySubstr S m.1 m.2) (i + 1)))
              (tks.drop (findEnd tks i (pySubstr S m.1 m.2) (i + 1)))
              (mkMergedToken sid (pySubstr S m.1 m.2) (pyPosOf (tks.headD [])) tag)
              (pySlice_ne_nil (by omega) (by omega))
              (by rw [surf_mkMergedToken]
                  exact hjoin.symm)]
          rw [take_slice_drop tks i (findEnd tks i (pySubstr S m.1 m.2) (i + 1)) (by omega)]
          exact hS
        dsimp only
        rw [if_pos hnew]
        constructor
        · intro h
          exact Except.noConfusion h
        · intro r hr
          cases hr
          refine ⟨hnew, ?_⟩
          simp only [List.length_append, List.length_take, List.length_cons,
            List.length_nil, List.length_drop]
          omega

/-- Folding match steps over a token list that rebuilds to `S` never fails
the reconstruction assertion, and on success preserves the rebuilt
sentence and never lengthens the token list. -/
lemma foldSteps_props (sid S : Str) (ms : List ((Nat × Nat) × Str × Str)) :
    ∀ (tks : List Token), sentenceOf tks = S →
      (List.foldlM (fun t (m : (Nat × Nat) × Str × Str) => stepMatch sid S t m.1) tks ms ≠
        .error .rebuildFailed) ∧
      (∀ r, List.foldlM (fun t (m : (Nat × Nat) × Str × Str) => stepMatch sid S t m.1) tks ms =
          .ok r → sentenceOf r = S ∧ r.length ≤ tks.length) := by
  induction ms with
  | nil =>
    intro tks hS
    constructor
    · intro h
      exact Except.noConfusion h
    · intro r hr
      cases hr
      exact ⟨hS, le_refl _⟩
  | cons m rest ih =>
    intro tks hS
    rw [List.foldlM_cons]
    have hstep := stepMatch_props sid S tks m.1 hS
    cases hs : stepMatch sid S tks m.1 with
    | error e =>
      cases e with
      | ambiguousTag =>
        constructor
        · intro h
          injection h with h2
          exact NormError.noConfusion h2
        · intro r hr
          exact Except.noConfusion hr
      | rebuildFailed => exact absurd hs hstep.1
    | ok t' =>
      have ht' := hstep.2 t' hs
      have hrest := ih t' ht'.1
      constructor
      · exact hrest.1
      · intro r hr
        have := hrest.2 r hr
        exact ⟨this.1, le_trans this.2 ht'.2⟩

/-- C2.  For every token sequence on which `normalize_numerical_fes`
completes without error, joining the returned tokens' surface-text fields
(field index 2) with single spaces yields exactly the original sentence;
moreover the line-167 reconstruction assertion can never fail. -/
theorem normalizeNumericalFes_round_trip (rules : Rules) (sid : Str)
    (tokens : List Token) :
    normalizeNumericalFes rules sid tokens ≠ .error .rebuildFailed ∧
    (∀ out, normalizeNumericalFes rules sid tokens = .ok out →
      pyJoin (out.map surf) = pyJoin (tokens.map surf)) := by
  have h := foldSteps_props sid (sentenceOf tokens)
    (normalizeMany rules (sentenceOf tokens)) tokens rfl
  exact ⟨h.1, fun out hout => (h.2 out hout).1⟩

/-- C10.  The token list returned by `normalize_numerical_fes` is never
longer than the input: each merge replaces at least one token by exactly
one token. -/
theorem normalizeNumericalFes_length_le (rules : Rules) (sid : Str)
    (tokens out : List Token)
    (h : normalizeNumericalFes rules sid tokens = .ok out) :
    out.length ≤ tokens.length := by
  have hp := foldSteps_props sid (sentenceOf tokens)
    (normalizeMany rules (sentenceOf tokens)) tokens rfl
  exact (hp.2 out h).2

lemma specPickLongest_eq_foldl (cands : List ((Nat × Nat) × Str × NormRule)) :
    specPickLongest cands = cands.foldl pickLongest none := rfl

lemma specPickShortest_eq_foldl (cands : List ((Nat × Nat) × Str × NormRule)) :
    specPickShortest cands = cands.foldl pickShortest none := rfl

lemma candidateList_nil (expr : Str) : candidateList [] expr = [] := rfl

lemma candidateList_cons (cr : Str × NormRule) (rest : List (Str × NormRule))
    (expr : Str) :
    candidateList (cr :: rest) expr =
      (match cr.2.search expr with
       | none => candidateList rest expr
       | some sp => (sp, cr.1, cr.2) :: candidateList rest expr) := by
  unfold candidateList
  cases h : cr.2.search expr <;> simp [h]

lemma normalizeOneLoop_longest (expr : Str) :
    ∀ (flat : List (Str × NormRule)) (acc : Option ((Nat × Nat) × Str × NormRule)),
      normalizeOneLoop expr strLongest flat (liftAcc acc) =
        readOut ((candidateList flat expr).foldl pickLongest acc) := by
  intro flat
  induction flat with
  | nil =>
    intro acc
    cases acc with
    | none => rfl
    | some b => rcases b with ⟨sp, cat, r⟩; rfl
  | cons cr rest ih =>
    intro acc
    rcases cr with ⟨cat, r⟩
    rw [candidateList_cons]
    cases hs : r.search expr with
    | none =>
      rw [normalizeOneLoop]
      simp only [hs]
      exact ih acc
    | some msp =>
      rw [normalizeOneLoop]
      simp only [hs]
      rw [if_neg (show ¬(strLongest = strFirst) by decide)]
      cases acc with
      | none =>
        show normalizeOneLoop expr strLongest rest (liftAcc (some (msp, cat, r))) = _
        rw [ih (some (msp, cat, r))]
        rfl
      | some b =>
        rcases b with ⟨bsp, bcat, br⟩
        rw [List.foldl_cons]
        by_cases hgt : msp.2 - msp.1 > bsp.2 - bsp.1
        · rw [show pickLongest (some (bsp, bcat, br)) (msp, cat, r) =
              some (msp, cat, r) by simp [pickLongest, hgt]]
          refine Eq.trans ?_ (ih (some (msp, cat, r)))
          simp only [liftAcc]
          split
          · rfl
          · rename_i hcond
            exact absurd (Or.inl ⟨by trivial, hgt⟩) hcond
        · rw [show pickLongest (some (bsp, bcat, br)) (msp, cat, r) =
              some (bsp, bcat, br) by simp [pickLongest, hgt]]
          refine Eq.trans ?_ (ih (some (bsp, bcat, br)))
          simp only [liftAcc]
          split
          · rename_i hcond
            rcases hcond with ⟨-, h⟩ | ⟨hx, -⟩
            · exact absurd h hgt
            · exact absurd hx (by decide)
          · rfl

lemma normalizeOneLoop_shortest (expr : Str) :
    ∀ (flat : List (Str × NormRule)) (acc : Option ((Nat × Nat) × Str × NormRule)),
      normalizeOneLoop expr strShortest flat (liftAcc acc) =
        readOut ((candidateList flat expr).foldl pickShortest acc) := by
  intro flat
  induction flat with
  | nil =>
    intro acc
    cases acc with
    | none => rfl
    | some b => rcases b with ⟨sp, cat, r⟩; rfl
  | cons cr rest ih =>
    intro acc
    rcases cr with ⟨cat, r⟩
    rw [candidateList_cons]
    cases hs : r.search expr with
    | none =>
      rw [normalizeOneLoop]
      simp only [hs]
      exact ih acc
    | some msp =>
      rw [normalizeOneLoop]
      simp only [hs]
      rw [if_neg (show ¬(strShortest = strFirst) by decide)]
      cases acc with
      | none =>
        show normalizeOneLoop expr strShortest rest (liftAcc (some (msp, cat, r))) = _
        rw [ih (some (msp, cat, r))]
        rfl
      | some b =>
        rcases b with ⟨bsp, bcat, br⟩
        rw [List.foldl_cons]
        by_cases hlt : msp.2 - msp.1 < bsp.2 - bsp.1
        · rw [show pickShortest (some (bsp, bcat, br)) (msp, cat, r) =
              some (msp, cat, r) by simp [pickShortest, hlt]]
          refine Eq.trans ?_ (ih (some (msp, cat, r)))
          simp only [liftAcc]
          split
          · rfl
          · rename_i hcond
            exact absurd (Or.inr ⟨by trivial, hlt⟩) hcond
        · rw [show pickShortest (some (bsp, bcat, br)) (msp, cat, r) =
              some (bsp, bcat, br) by simp [pickShortest, hlt]]
          refine Eq.trans ?_ (ih (some (bsp, bcat, br)))
          simp only [liftAcc]
          split
          · rename_i hcond
            rcases hcond with ⟨hx, -⟩ | ⟨-, h⟩
            · exact absurd hx (by decide)
            · exact absurd h hlt
          · rfl

/-- C3.  Under `'longest'` (respectively `'shortest'`), `normalize_one`
scans all rules keeping a candidate only when its span length is strictly
greater (respectively strictly less) than the best seen so far — so the
first-found match wins ties — returns the processed best after the scan,
and returns the sentinel `((-1, -1), None, None)` when no rule matched:
it equals the spec-side fold over the candidate list. -/
theorem normalizeOne_longest_shortest_spec (rules : Rules) (expression : Str) :
    normalizeOne rules expression strLongest =
      readOut (specPickLongest (candidateList (flatRules rules) (pyLower expression))) ∧
    normalizeOne rules expression strShortest =
      readOut (specPickShortest (candidateList (flatRules rules) (pyLower expression))) := by
  constructor
  · rw [specPickLongest_eq_foldl]
    exact normalizeOneLoop_longest (pyLower expression) (flatRules rules) none
  · rw [specPickShortest_eq_foldl]
    exact normalizeOneLoop_shortest (pyLower expression) (flatRules rules) none

lemma normalizeOneLoop_other_keep (expr conflict : Str)
    (h1 : conflict ≠ strFirst) (h2 : conflict ≠ strLongest)
    (h3 : conflict ≠ strShortest) :
    ∀ (flat : List (Str × NormRule)) (sp : Nat × Nat) (n : Nat) (cat : Str)
      (r : NormRule),
      normalizeOneLoop expr conflict flat (some (sp, n, cat, r)) =
        processMatch cat r sp := by
  intro flat
  induction flat with
  | nil => intro sp n cat r; rfl
  | cons cr rest ih =>
    intro sp n cat r
    rcases cr with ⟨cat', r'⟩
    rw [normalizeOneLoop]
    cases hs : r'.search expr with
    | none => exact ih sp n cat r
    | some msp =>
      simp only []
      rw [if_neg h1, if_neg (by
        rintro (⟨hc, -⟩ | ⟨hc, -⟩)
        · exact h2 hc
        · exact h3 hc)]
      exact ih sp n cat r

lemma normalizeOneLoop_other_first (expr conflict : Str)
    (h1 : conflict ≠ strFirst) (h2 : conflict ≠ strLongest)
    (h3 : conflict ≠ strShortest) :
    ∀ (flat : List (Str × NormRule)),
      normalizeOneLoop expr conflict flat none =
        normalizeOneLoop expr strFirst flat none := by
  intro flat
  induction flat with
  | nil => rfl
  | cons cr rest ih =>
    rcases cr with ⟨cat, r⟩
    rw [normalizeOneLoop, normalizeOneLoop]
    cases hs : r.search expr with
    | none => exact ih
    | some msp =>
      dsimp only
      rw [if_neg h1, if_pos rfl]
      exact normalizeOneLoop_other_keep expr conflict h1 h2 h3 rest msp
        (msp.2 - msp.1) cat r

/-- C9.  For every conflict argument outside `{'first', 'longest',
'shortest'}`, `normalize_one` raises no error: it records the first
candidate found, never replaces it, and returns the same value as
`conflict='first'`. -/
theorem normalizeOne_unknown_conflict (conflict : Str)
    (h1 : conflict ≠ strFirst) (h2 : conflict ≠ strLongest)
    (h3 : conflict ≠ strShortest) (rules : Rules) (expression : Str) :
    normalizeOne rules expression conflict =
      normalizeOne rules expression strFirst :=
  normalizeOneLoop_other_first (pyLower expression) conflict h1 h2 h3
    (flatRules rules)

lemma foldl_max_init_le (l : List Nat) : ∀ a, a ≤ l.foldl max a := by
  induction l with
  | nil => intro a; simp
  | cons x xs ih =>
    intro a
    rw [List.foldl_cons]
    exact le_trans (le_max_left a x) (ih (max a x))

lemma foldl_max_mem_le (l : List Nat) : ∀ a x, x ∈ l → x ≤ l.foldl max a := by
  induction l with
  | nil => intro a x hx; simp at hx
  | cons y ys ih =>
    intro a x hx
    rw [List.foldl_cons]
    rcases List.mem_cons.mp hx with rfl | hx
    · exact le_trans (le_max_right a x) (foldl_max_init_le ys (max a x))
    · exact ih (max a y) x hx

lemma foldl_max_shift (l : List Nat) : ∀ (p a : Nat),
    (l.map (fun x => p + x)).foldl max (p + a) = p + l.foldl max a := by
  induction l with
  | nil => intro p a; simp
  | cons x xs ih =>
    intro p a
    simp only [List.map_cons, List.foldl_cons]
    rw [max_add_add_left p a x, ih p (max a x)]

lemma foldl_max_pairend (ms : List (Nat × Nat)) (a : Nat) :
    ms.foldl (fun e m => max e m.2) a = (ms.map (fun m => m.2)).foldl max a := by
  rw [List.foldl_map]

/-- Per-pass facts of `normalize_many`'s scanning loop: every pass starts
at or after the initial cursor, never moves the cursor backwards, advances
it to the maximum absolute end offset of its spans (staying put with no
match), and yields in-order non-overlapping spans within
`[prePos, postPos]`. -/
lemma manyScan_pass_facts (expr : Str) :
    ∀ (rs : List (Str × NormRule)) (pos : Nat),
      (∀ cr ∈ rs, ∀ s, SpanChain (cr.2.finditer s)) →
      ∀ p ∈ (manyScan expr rs pos).map (fun x => x.2),
        pos ≤ p.prePos ∧ p.prePos ≤ p.postPos ∧
        p.postPos = (p.absSpans.map (fun m => m.2)).foldl max p.prePos ∧
        (∀ m ∈ p.absSpans, p.prePos ≤ m.1 ∧ m.1 ≤ m.2 ∧ m.2 ≤ p.postPos) ∧
        p.absSpans.Chain' (fun a b => a.2 ≤ b.1) := by
  intro rs
  induction rs with
  | nil => intro pos hyp p hp; simp [manyScan] at hp
  | cons cr rest ih =>
    intro pos hyp p hp
    rw [manyScan] at hp
    simp only [List.map_cons, List.mem_cons] at hp
    have hchain := (hyp cr (List.mem_cons_self cr rest)) (expr.drop pos)
    rcases hp with rfl | hp
    · refine ⟨le_refl _, ?_, ?_, ?_, ?_⟩
      · dsimp only
        omega
      · dsimp only [RulePass.absSpans]
        rw [List.map_map]
        have e1 : ((fun m : Nat × Nat => m.2) ∘
            (fun m : Nat × Nat => (pos + m.1, pos + m.2))) =
            ((fun x : Nat => pos + x) ∘ (fun m : Nat × Nat => m.2)) := rfl
        rw [e1, ← List.map_map]
        have e3 := foldl_max_shift
          ((cr.2.finditer (expr.drop pos)).map (fun m => m.2)) pos 0
        rw [Nat.add_zero] at e3
        rw [e3, foldl_max_pairend]
      · intro m hm
        dsimp only [RulePass.absSpans] at hm ⊢
        rw [List.mem_map] at hm
        rcases hm with ⟨m0, hm0, rfl⟩
        have hse := hchain.1 m0 hm0
        have hend : m0.2 ≤ (cr.2.finditer (expr.drop pos)).foldl
            (fun e m => max e m.2) 0 := by
          rw [foldl_max_pairend]
          exact foldl_max_mem_le _ 0 m0.2 (List.mem_map.mpr ⟨m0, hm0, rfl⟩)
        dsimp only
        omega
      · dsimp only [RulePass.absSpans]
        exact List.chain'_map_of_chain' _
          (fun a b h => by dsimp only; omega) hchain.2
    · have hrest := ih _ (fun c hc => hyp c (List.mem_cons_of_mem cr hc)) p hp
      have hpos : pos ≤ pos + (cr.2.finditer (expr.drop pos)).foldl
          (fun e m => max e m.2) 0 := by omega
      exact ⟨le_trans hpos hrest.1, hrest.2⟩

/-- Every absolute span yielded from a scan starting at `pos` starts at or
after `pos`. -/
lemma manyScan_spans_ge (expr : Str) (rs : List (Str × NormRule)) (pos : Nat)
    (hyp : ∀ cr ∈ rs, ∀ s, SpanChain (cr.2.finditer s)) :
    ∀ p ∈ (manyScan expr rs pos).map (fun x => x.2), ∀ m ∈ p.absSpans,
      pos ≤ m.1 := by
  intro p hp m hm
  have h := manyScan_pass_facts expr rs pos hyp p hp
  exact le_trans h.1 ((h.2.2.2.1 m hm).1)

lemma chain'_starts {l : List (Nat × Nat)} (h1 : ∀ m ∈ l, m.1 ≤ m.2)
    (h2 : l.Chain' (fun a b => a.2 ≤ b.1)) :
    l.Chain' (fun a b => a.1 ≤ b.1) := by
  induction l with
  | nil => simp
  | cons x xs ih =>
    rw [List.chain'_cons'] at h2 ⊢
    refine ⟨?_, ih (fun m hm => h1 m (List.mem_cons_of_mem x hm)) h2.2⟩
    intro b hb
    exact le_trans (h1 x (List.mem_cons_self x xs)) (h2.1 b hb)

lemma manyScan_head_mem (expr : Str) (cr : Str × NormRule)
    (rest : List (Str × NormRule)) (pos : Nat) :
    ({ prePos := pos, rel := cr.2.finditer (expr.drop pos),
       postPos := pos + (cr.2.finditer (expr.drop pos)).foldl
         (fun e m => max e m.2) 0 } : RulePass) ∈
      (manyScan expr (cr :: rest) pos).map (fun x => x.2) := by
  rw [manyScan, List.map_cons]
  exact List.mem_cons_self _ _

/-- The cursor trace of `normalize_many` is linked: each pass starts where
the previous one ended. -/
lemma manyScan_link (expr : Str) :
    ∀ (rs : List (Str × NormRule)) (pos : Nat),
      ((manyScan expr rs pos).map (fun x => x.2)).Chain'
        (fun a b => a.postPos = b.prePos) := by
  intro rs
  induction rs with
  | nil => intro pos; simp [manyScan]
  | cons cr rest ih =>
    intro pos
    rw [manyScan]
    simp only [List.map_cons]
    rw [List.chain'_cons']
    refine ⟨?_, ih _⟩
    intro b hb
    cases rest with
    | nil => simp [manyScan] at hb
    | cons cr' rest' =>
      rw [manyScan] at hb
      simp only [List.map_cons, List.head?_cons] at hb
      cases hb
      rfl

/-- The absolute spans of all passes, in emission order, have
non-decreasing start offsets. -/
lemma manyScan_flat_chain (expr : Str) :
    ∀ (rs : List (Str × NormRule)) (pos : Nat),
      (∀ cr ∈ rs, ∀ s, SpanChain (cr.2.finditer s)) →
      (((manyScan expr rs pos).map (fun x => x.2)).flatMap RulePass.absSpans).Chain'
        (fun a b => a.1 ≤ b.1) := by
  intro rs
  induction rs with
  | nil => intro pos hyp; simp [manyScan]
  | cons cr rest ih =>
    intro pos hyp
    have hhead := manyScan_pass_facts expr (cr :: rest) pos hyp _
      (manyScan_head_mem expr cr rest pos)
    rw [manyScan]
    simp only [List.map_cons, List.flatMap_cons]
    rw [List.chain'_append]
    refine ⟨?_, ih _ (fun c hc => hyp c (List.mem_cons_of_mem cr hc)), ?_⟩
    · exact chain'_starts (fun m hm => (hhead.2.2.2.1 m hm).2.1) hhead.2.2.2.2
    · intro x hx y hy
      have hxm := List.mem_of_mem_getLast? hx
      have hym := List.mem_of_mem_head? hy
      rcases List.mem_flatMap.mp hym with ⟨p, hp, hyp2⟩
      have hyge := manyScan_spans_ge expr rest
        (pos + (cr.2.finditer (expr.drop pos)).foldl (fun e m => max e m.2) 0)
        (fun c hc => hyp c (List.mem_cons_of_mem cr hc)) p hp y hyp2
      have hxf := hhead.2.2.2.1 x hxm
      have : x.2 ≤ pos + (cr.2.finditer (expr.drop pos)).foldl
          (fun e m => max e m.2) 0 := hxf.2.2
      omega

/-- No span of a later pass overlaps a region claimed by an earlier pass. -/
lemma manyScan_groups_pairwise (expr : Str) :
    ∀ (rs : List (Str × NormRule)) (pos : Nat),
      (∀ cr ∈ rs, ∀ s, SpanChain (cr.2.finditer s)) →
      (((manyScan expr rs pos).map (fun x => x.2)).map RulePass.absSpans).Pairwise
        (fun g g2 => ∀ a ∈ g, ∀ b ∈ g2, a.2 ≤ b.1) := by
  intro rs
  induction rs with
  | nil => intro pos hyp; simp [manyScan]
  | cons cr rest ih =>
    intro pos hyp
    have hhead := manyScan_pass_facts expr (cr :: rest) pos hyp _
      (manyScan_head_mem expr cr rest pos)
    rw [manyScan]
    simp only [List.map_cons]
    rw [List.pairwise_cons]
    refine ⟨?_, ih _ (fun c hc => hyp c (List.mem_cons_of_mem cr hc))⟩
    intro g2 hg2 a ha b hb
    rcases List.mem_map.mp hg2 with ⟨p, hp, rfl⟩
    have hbge := manyScan_spans_ge expr rest
      (pos + (cr.2.finditer (expr.drop pos)).foldl (fun e m => max e m.2) 0)
      (fun c hc => hyp c (List.mem_cons_of_mem cr hc)) p hp b hb
    have haf := hhead.2.2.2.1 a ha
    have : a.2 ≤ pos + (cr.2.finditer (expr.drop pos)).foldl
        (fun e m => max e m.2) 0 := haf.2.2
    omega

lemma yields_spans_eq (l : List ((Str × NormRule) × RulePass)) :
    (l.flatMap (fun p => p.2.rel.map
      (fun m => ((p.2.prePos + m.1, p.2.prePos + m.2), p.1.1, p.1.2.transform m)))).map
        (fun y => y.1) =
    (l.map (fun x => x.2)).flatMap RulePass.absSpans := by
  induction l with
  | nil => rfl
  | cons a l ih =>
    simp only [List.flatMap_cons, List.map_append, List.map_cons, ih, List.map_map]
    rfl

/-- C4.  In `normalize_many`, the spans it yields are exactly the
per-pass absolute spans in pass order; the cursor never decreases and
after each pass it sits at the maximum absolute end offset seen in that
pass (staying put on a pass with no match); yielded spans have
non-decreasing start offsets; and no yielded span overlaps a region
claimed by an earlier rule's matches. -/
theorem normalizeMany_scan_properties (rules : Rules) (expression : Str)
    (hyp : ∀ cr ∈ flatRules rules, ∀ s, SpanChain (cr.2.finditer s)) :
    ((normalizeMany rules expression).map (fun y => y.1) =
      ((manyScan (pyLower expression) (flatRules rules) 0).map (fun x => x.2)).flatMap
        RulePass.absSpans) ∧
    (∀ p ∈ (manyScan (pyLower expression) (flatRules rules) 0).map (fun x => x.2),
        p.prePos ≤ p.postPos ∧
        p.postPos = (p.absSpans.map (fun m => m.2)).foldl max p.prePos) ∧
    ((manyScan (pyLower expression) (flatRules rules) 0).map (fun x => x.2)).Chain'
      (fun a b => a.postPos = b.prePos) ∧
    (((manyScan (pyLower expression) (flatRules rules) 0).map (fun x => x.2)).flatMap
      RulePass.absSpans).Chain' (fun a b => a.1 ≤ b.1) ∧
    (((manyScan (pyLower expression) (flatRules rules) 0).map (fun x => x.2)).map
      RulePass.absSpans).Pairwise (fun g g2 => ∀ a ∈ g, ∀ b ∈ g2, a.2 ≤ b.1) := by
  refine ⟨?_, ?_, manyScan_link (pyLower expression) (flatRules rules) 0,
    manyScan_flat_chain (pyLower expression) (flatRules rules) 0 hyp,
    manyScan_groups_pairwise (pyLower expression) (flatRules rules) 0 hyp⟩
  · unfold normalizeMany
    exact yields_spans_eq _
  · intro p hp
    have h := manyScan_pass_facts (pyLower expression) (flatRules rules) 0 hyp p hp
    exact ⟨h.2.1, h.2.2.1⟩

/-- C6.  Tag resolution during a merge is determined by the set of
distinct non-`'O'` tags of the covered tokens — empty gives `'O'`, a
singleton gives its element, anything larger is the fatal ambiguous-tag
assertion — and when the resolution fails on a reached merge, the whole
step aborts with the ambiguous-tag error instead of guessing. -/
theorem resolveTag_spec :
    (∀ covered : List Token,
      resolveTag covered = specTagResolution (dedupTags covered)) ∧
    (∀ (sid sentence : Str) (tokens : List Token) (span : Nat × Nat) (i : Nat),
      findStart span.1 tokens 0 0 = some i →
      findEnd tokens i (pySubstr sentence span.1 span.2) (i + 1) ≠ tokens.length →
      resolveTag (pySlice tokens i
        (findEnd tokens i (pySubstr sentence span.1 span.2) (i + 1))) = none →
      stepMatch sid sentence tokens span = .error .ambiguousTag) := by
  constructor
  · intro covered
    unfold resolveTag
    rcases h : dedupTags covered with _ | ⟨t, _ | ⟨u, l⟩⟩
    · rw [if_pos (by simp)]
      rfl
    · rw [if_pos (by simp)]
      rfl
    · rw [if_neg (by simp only [List.length_cons]; omega)]
      rfl
  · intro sid sentence tokens span i hfs hne htag
    unfold stepMatch
    rw [hfs]
    dsimp only
    rw [if_neg hne, htag]

/-- C7 (amended).  Every merge of `normalize_numerical_fes` replaces
`tokens[i:j]` (`j - i ≥ 1` tokens) by exactly the token
`[sentence_id, '-', original, 'ENT', original, tokens[0][-2], tag]` —
the matched substring duplicated at field indices 2 and 4, and the POS
field copied from the *first token of the current token sequence*
(`tokens[0]`), not from the first covered token. -/
theorem stepMatch_merge_shape (sid sentence : Str) (tokens : List Token)
    (span : Nat × Nat) (out : List Token)
    (hok : stepMatch sid sentence tokens span = .ok out)
    (hne : out ≠ tokens) :
    ∃ i j tag, i + 1 ≤ j ∧ j ≠ tokens.length ∧
      resolveTag (pySlice tokens i j) = some tag ∧
      out = tokens.take i ++
        [[sid, "-".toList, pySubstr sentence span.1 span.2, "ENT".toList,
          pySubstr sentence span.1 span.2, pyPosOf (tokens.headD []), tag]] ++
        tokens.drop j := by
  unfold stepMatch at hok
  cases hfs : findStart span.1 tokens 0 0 with
  | none =>
    rw [hfs] at hok
    cases hok
    exact absurd rfl hne
  | some i =>
    rw [hfs] at hok
    dsimp only at hok
    by_cases hjl : findEnd tokens i (pySubstr sentence span.1 span.2) (i + 1) =
        tokens.length
    · rw [if_pos hjl] at hok
      cases hok
      exact absurd rfl hne
    · rw [if_neg hjl] at hok
      cases htag : resolveTag (pySlice tokens i
          (findEnd tokens i (pySubstr sentence span.1 span.2) (i + 1))) with
      | none =>
        rw [htag] at hok
        exact Except.noConfusion hok
      | some tag =>
        rw [htag] at hok
        dsimp only at hok
        by_cases hre : sentenceOf (tokens.take i ++
            [mkMergedToken sid (pySubstr sentence span.1 span.2)
              (pyPosOf (tokens.headD [])) tag] ++
            tokens.drop (findEnd tokens i (pySubstr sentence span.1 span.2) (i + 1))) =
            sentence
        · rw [if_pos hre] at hok
          cases hok
          exact ⟨i, findEnd tokens i (pySubstr sentence span.1 span.2) (i + 1), tag,
            findEnd_ge tokens i (pySubstr sentence span.1 span.2) (i + 1), hjl,
            htag, rfl⟩
        · rw [if_neg hre] at hok
          exact Except.noConfusion hok

/-- C1 (evaluation of the code at the failing input): the match span
`(5, 9)` over "born 1920" starts exactly at token index 1 (an exact
offset hit) and the space-join of `tokens[1:2]` equals the matched
substring with `j = 2 = len(tokens)`, so the claim requires a merge, yet
`normalize_numerical_fes` skips it and returns the tokens unchanged: the
skip test fires on `j == len(tokens)` even though the join already equals
the matched substring. -/
theorem normalizeNumericalFes_skips_final_token_match :
    normalizeNumericalFes demoRules2 ("s1".toList) [tokBorn, tok1920] =
      .ok [tokBorn, tok1920] ∧
    findStart 5 [tokBorn, tok1920] 0 0 = some 1 ∧
    pyJoin ((pySlice ([tokBorn, tok1920] : List Token) 1 2).map surf) =
      pySubstr (sentenceOf [tokBorn, tok1920]) 5 9 ∧
    ([tokBorn, tok1920] : List Token).length = 2 := by decide

/-- C7 counterexample: in the merge for "1920" inside "born 1920 x" the
first covered token is `tokens[1]` with POS field "CD", but the merged
token's POS field is "VBD", copied from `tokens[0]` — so the new token's
part-of-speech field is not copied from the first covered token. -/
theorem mergedToken_pos_not_from_first_covered :
    normalizeNumericalFes demoRules3 ("s1".toList) [tokBorn, tok1920O, tokX] =
      .ok [tokBorn, tokMerged1920, tokX] ∧
    pyPosOf tokMerged1920 = "VBD".toList ∧
    pyPosOf tok1920O = "CD".toList ∧
    pyPosOf tokMerged1920 ≠ pyPosOf tok1920O := by decide

theorem normalizeNumericalFes_round_trip_witness :
    pyJoin (([tokBorn, tokMerged1920, tokX] : List Token).map surf) =
      pyJoin (([tokBorn, tok1920O, tokX] : List Token).map surf) :=
  (normalizeNumericalFes_round_trip demoRules3 ("s1".toList)
    [tokBorn, tok1920O, tokX]).2 [tokBorn, tokMerged1920, tokX] (by decide)

theorem normalizeNumericalFes_length_le_witness :
    ([tokBorn, tokMerged1920, tokX] : List Token).length ≤
      ([tokBorn, tok1920O, tokX] : List Token).length :=
  normalizeNumericalFes_length_le demoRules3 ("s1".toList)
    [tokBorn, tok1920O, tokX] [tokBorn, tokMerged1920, tokX] (by decide)

theorem normalizeMany_scan_properties_witness :
    (((manyScan (pyLower ("born 1920 x".toList)) (flatRules demoRules3) 0).map
      (fun x => x.2)).flatMap RulePass.absSpans).Chain' (fun a b => a.1 ≤ b.1) :=
  (normalizeMany_scan_properties demoRules3 ("born 1920 x".toList) (by
    intro cr hcr s
    have : cr = (("date".toList : Str), litRule ("born 1920 x".toList) [(5, 9)]) := by
      simpa [flatRules, demoRules3] using hcr
    rw [this]
    show SpanChain (if s = "born 1920 x".toList then [(5, 9)] else [])
    by_cases hs : s = "born 1920 x".toList
    · rw [if_pos hs]
      exact ⟨by decide, List.chain'_singleton _⟩
    · rw [if_neg hs]
      exact ⟨by decide, List.chain'_nil⟩)).2.2.2.1

theorem resolveTag_spec_witness :
    resolveTag [tok1920] = specTagResolution (dedupTags [tok1920]) ∧
    stepMatch ("s1".toList) ("12 march x".toList) [tok12, tokMarch, tokX] (0, 8) =
      .error .ambiguousTag :=
  ⟨resolveTag_spec.1 [tok1920],
    resolveTag_spec.2 ("s1".toList) ("12 march x".toList) [tok12, tokMarch, tokX]
      (0, 8) 0 (by decide) (by decide) (by decide)⟩

theorem stepMatch_merge_shape_witness :
    ∃ i j tag, i + 1 ≤ j ∧ j ≠ ([tokBorn, tok1920O, tokX] : List Token).length ∧
      resolveTag (pySlice ([tokBorn, tok1920O, tokX] : List Token) i j) = some tag ∧
      ([tokBorn, tokMerged1920, tokX] : List Token) =
        ([tokBorn, tok1920O, tokX] : List Token).take i ++
        [[("s1".toList : Str), "-".toList,
          pySubstr ("born 1920 x".toList) (5, 9).1 (5, 9).2, "ENT".toList,
          pySubstr ("born 1920 x".toList) (5, 9).1 (5, 9).2,
          pyPosOf (([tokBorn, tok1920O, tokX] : List Token).headD []), tag]] ++
        ([tokBorn, tok1920O, tokX] : List Token).drop j :=
  stepMatch_merge_shape ("s1".toList) ("born 1920 x".toList)
    [tokBorn, tok1920O, tokX] (5, 9) [tokBorn, tokMerged1920, tokX]
    (by decide) (by decide)

theorem normalizeOne_unknown_conflict_witness :
    normalizeOne demoRules2 ("born 1920".toList) ("banana".toList) =
      normalizeOne demoRules2 ("born 1920".toList) strFirst :=
  normalizeOne_unknown_conflict ("banana".toList) (by decide) (by decide)
    (by decide) demoRules2 ("born 1920".toList)

lemma weightOf_append (a b : List Token) :
    weightOf (a ++ b) = weightOf a + weightOf b := by
  simp [weightOf]

lemma weightOf_cons (t : Token) (l : List Token) :
    weightOf (t :: l) = (surf t).length + 1 + weightOf l := by
  simp [weightOf]

lemma tokenStarts_length (toks : List Token) : ∀ c,
    (tokenStarts toks c).length = toks.length := by
  induction toks with
  | nil => intro c; rfl
  | cons t rest ih => intro c; simp [tokenStarts, ih]

lemma tokenStarts_ge (toks : List Token) : ∀ c, ∀ x ∈ tokenStarts toks c, c ≤ x := by
  induction toks with
  | nil => intro c x hx; simp [tokenStarts] at hx
  | cons t rest ih =>
    intro c x hx
    rw [tokenStarts] at hx
    rcases List.mem_cons.mp hx with rfl | hx
    · exact le_refl _
    · have := ih _ x hx
      omega

lemma tokenStarts_pairwise (toks : List Token) : ∀ c,
    (tokenStarts toks c).Pairwise (· < ·) := by
  induction toks with
  | nil => intro c; simp [tokenStarts]
  | cons t rest ih =>
    intro c
    rw [tokenStarts, List.pairwise_cons]
    refine ⟨?_, ih _⟩
    intro x hx
    have := tokenStarts_ge rest _ x hx
    omega

lemma tokenStarts_append (a b : List Token) : ∀ c,
    tokenStarts (a ++ b) c = tokenStarts a c ++ tokenStarts b (c + weightOf a) := by
  induction a with
  | nil => intro c; simp [tokenStarts, weightOf]
  | cons t rest ih =>
    intro c
    rw [List.cons_append, tokenStarts, tokenStarts, ih, weightOf_cons,
      List.cons_append]
    rw [show c + ((surf t).length + 1 + weightOf rest) =
      c + (surf t).length + 1 + weightOf rest by omega]

lemma tokenStarts_get (toks : List Token) : ∀ (c k : Nat), k < toks.length →
    (tokenStarts toks c).get? k = some (c + weightOf (toks.take k)) := by
  induction toks with
  | nil => intro c k hk; simp at hk
  | cons t rest ih =>
    intro c k hk
    cases k with
    | zero => simp [tokenStarts, weightOf]
    | succ k' =>
      rw [tokenStarts]
      simp only [List.get?_cons_succ]
      rw [ih (c + (surf t).length + 1) k' (by simpa using hk)]
      rw [List.take_succ_cons, weightOf_cons]
      rw [show c + (surf t).length + 1 + weightOf (rest.take k') =
        c + ((surf t).length + 1 + weightOf (rest.take k')) by omega]

/-- The tail-join of a take is a take of the tail-join. -/
lemma pyJoinTail_take (toks : List Token) : ∀ (j : Nat),
    pyJoinTail ((toks.take j).map surf) =
      (pyJoinTail (toks.map surf)).take (weightOf (toks.take j)) := by
  induction toks with
  | nil => intro j; simp [pyJoinTail, weightOf]
  | cons t rest ih =>
    intro j
    cases j with
    | zero => simp [pyJoinTail, weightOf]
    | succ j' =>
      rw [List.take_succ_cons, List.map_cons, List.map_cons, pyJoinTail,
        pyJoinTail, weightOf_cons]
      rw [show (surf t).length + 1 + weightOf (rest.take j') =
        ((' ' :: surf t : Str).length + weightOf (rest.take j')) by
          simp [Nat.add_comm]]
      rw [show (' ' :: (surf t ++ pyJoinTail (rest.map surf)) : Str) =
        ((' ' :: surf t : Str) ++ pyJoinTail (rest.map surf)) by simp]
      rw [List.take_append]
      rw [ih j']
      simp

/-- The tail-join of a drop is a drop of the tail-join. -/
lemma pyJoinTail_drop (toks : List Token) : ∀ (j : Nat),
    pyJoinTail ((toks.drop j).map surf) =
      (pyJoinTail (toks.map surf)).drop (weightOf (toks.take j)) := by
  induction toks with
  | nil => intro j; simp [pyJoinTail, weightOf]
  | cons t rest ih =>
    intro j
    cases j with
    | zero => simp [weightOf]
    | succ j' =>
      rw [List.drop_succ_cons, List.take_succ_cons, List.map_cons, pyJoinTail,
        weightOf_cons]
      rw [show (surf t).length + 1 + weightOf (rest.take j') =
        ((' ' :: surf t : Str).length + weightOf (rest.take j')) by
          simp [Nat.add_comm]]
      rw [show (' ' :: (surf t ++ pyJoinTail (rest.map surf)) : Str) =
        ((' ' :: surf t : Str) ++ pyJoinTail (rest.map surf)) by simp]
      rw [List.drop_append]
      exact ih j'

lemma pyJoin_eq_drop_pyJoinTail (l : List Str) :
    pyJoin l = (pyJoinTail l).drop 1 := by
  cases l with
  | nil => rfl
  | cons s rest => simp [pyJoin, pyJoinTail]

/-- The sentence of a dropped suffix is the corresponding drop of the
whole sentence. -/
lemma sentenceOf_drop (toks : List Token) (i : Nat) :
    sentenceOf (toks.drop i) = (sentenceOf toks).drop (weightOf (toks.take i)) := by
  unfold sentenceOf
  rw [pyJoin_eq_drop_pyJoinTail, pyJoin_eq_drop_pyJoinTail, pyJoinTail_drop,
    List.drop_drop, List.drop_drop]
  rw [Nat.add_comm]

/-- The sentence of a slice is a take of the sentence of the drop. -/
lemma sentenceOf_slice (toks : List Token) (i j : Nat) :
    sentenceOf (pySlice toks i j) =
      (sentenceOf (toks.drop i)).take (weightOf (pySlice toks i j) - 1) := by
  unfold pySlice
  rw [show sentenceOf ((toks.drop i).take (j - i)) =
    (pyJoinTail (((toks.drop i).take (j - i)).map surf)).drop 1 from
      pyJoin_eq_drop_pyJoinTail _]
  rw [pyJoinTail_take (toks.drop i) (j - i)]
  rw [show sentenceOf (toks.drop i) =
    (pyJoinTail ((toks.drop i).map surf)).drop 1 from pyJoin_eq_drop_pyJoinTail _]
  rw [List.drop_take]

lemma get?_some_lt {α : Type} {l : List α} {n : Nat} {a : α} (h : l.get? n = some a) :
    n < l.length := by
  by_contra hc
  rw [List.get?_eq_none.mpr (by omega)] at h
  exact Option.noConfusion h

lemma pairwise_lt_index {l : List Nat} (hp : l.Pairwise (· < ·)) {a b x y : Nat}
    (ha : l.get? a = some x) (hb : l.get? b = some y) (hxy : x < y) : a < b := by
  have hal := get?_some_lt ha
  have hbl := get?_some_lt hb
  by_contra hc
  push_neg at hc
  rcases Nat.lt_or_ge b a with hba | hba
  · have := (List.pairwise_iff_get.mp hp) ⟨b, hbl⟩ ⟨a, hal⟩ hba
    rw [List.get?_eq_get hbl] at hb
    rw [List.get?_eq_get hal] at ha
    cases ha
    cases hb
    omega
  · have hab : a = b := by omega
    subst hab
    rw [ha] at hb
    cases hb
    omega

lemma pairwise_index_lt {l : List Nat} (hp : l.Pairwise (· < ·)) {a b x y : Nat}
    (ha : l.get? a = some x) (hb : l.get? b = some y) (hab : a < b) : x < y := by
  have hal := get?_some_lt ha
  have hbl := get?_some_lt hb
  have := (List.pairwise_iff_get.mp hp) ⟨a, hal⟩ ⟨b, hbl⟩ hab
  rw [List.get?_eq_get hal] at ha
  rw [List.get?_eq_get hbl] at hb
  cases ha
  cases hb
  exact this

lemma pyJoinTail_length_weight (l : List Token) :
    (pyJoinTail (l.map surf)).length = weightOf l := by
  induction l with
  | nil => rfl
  | cons t rest ih => simp [pyJoinTail, weightOf_cons, ih]; omega

lemma sentenceOf_length (toks : List Token) (_h : toks ≠ []) :
    (sentenceOf toks).length = weightOf toks - 1 := by
  unfold sentenceOf
  rw [pyJoin_eq_drop_pyJoinTail, List.length_drop, pyJoinTail_length_weight]

lemma weightOf_pos {l : List Token} (h : l ≠ []) : 1 ≤ weightOf l := by
  cases l with
  | nil => exact absurd rfl h
  | cons t rest => rw [weightOf_cons]; omega

lemma weightOf_take_le (toks : List Token) (j : Nat) :
    weightOf (toks.take j) ≤ weightOf toks := by
  conv_rhs => rw [← List.take_append_drop j toks]
  rw [weightOf_append]
  omega

lemma weightOf_take_slice (toks : List Token) (i j : Nat) (hij : i ≤ j) :
    weightOf (toks.take j) = weightOf (toks.take i) + weightOf (pySlice toks i j) := by
  conv_lhs => rw [show j = i + (j - i) by omega, List.take_add]
  rw [weightOf_append]
  rfl

/-- The join of the covered slice equals the matched substring exactly
when the next token's start offset is the match's target offset. -/
lemma slice_join_eq_iff (toks : List Token) (S : Str) (hS : sentenceOf toks = S)
    (i j e : Nat) (hij : i < j) (hj : j ≤ toks.length) :
    (sentenceOf (pySlice toks i j) =
      pySubstr S (weightOf (toks.take i)) e) ↔
    weightOf (toks.take j) = weightOf (toks.take i) +
      (pySubstr S (weightOf (toks.take i)) e).length + 1 := by
  have htoks : toks ≠ [] := by
    intro h
    rw [h] at hj
    simp at hj
    omega
  have hlenS : S.length = weightOf toks - 1 := by
    rw [← hS]
    exact sentenceOf_length toks htoks
  have hwslice : 1 ≤ weightOf (pySlice toks i j) :=
    weightOf_pos (pySlice_ne_nil (by omega) hij)
  have hwtake := weightOf_take_slice toks i j (by omega)
  have hwle := weightOf_take_le toks j
  have hwtot : 1 ≤ weightOf toks := weightOf_pos htoks
  have hwi_le : weightOf (toks.take i) ≤ weightOf (toks.take j) := by omega
  have e1 : sentenceOf (pySlice toks i j) =
      (S.drop (weightOf (toks.take i))).take (weightOf (pySlice toks i j) - 1) := by
    rw [sentenceOf_slice, sentenceOf_drop, hS]
  have e2 : pySubstr S (weightOf (toks.take i)) e =
      (S.drop (weightOf (toks.take i))).take (e - weightOf (toks.take i)) := by
    unfold pySubstr
    rw [List.drop_take]
  rw [e1, e2, List.take_eq_take]
  simp only [List.length_take, List.length_drop]
  omega

lemma findStart_none_iff (start : Nat) : ∀ (toks : List Token) (c i0 : Nat),
    findStart start toks c i0 = none ↔ start ∉ tokenStarts toks c := by
  intro toks
  induction toks with
  | nil => intro c i0; simp [findStart, tokenStarts]
  | cons t rest ih =>
    intro c i0
    rw [findStart, tokenStarts]
    by_cases hc : c = start
    · rw [if_pos hc]
      simp [hc]
    · rw [if_neg hc]
      rw [ih]
      simp only [List.mem_cons]
      constructor
      · intro h1 h2
        rcases h2 with h2 | h2
        · exact hc h2.symm
        · exact h1 h2
      · intro h1 h2
        exact h1 (Or.inr h2)

lemma findStart_of_get (start : Nat) : ∀ (toks : List Token) (c i0 k : Nat),
    (tokenStarts toks c).get? k = some start →
    findStart start toks c i0 = some (i0 + k) := by
  intro toks
  induction toks with
  | nil => intro c i0 k h; simp [tokenStarts] at h
  | cons t rest ih =>
    intro c i0 k h
    rw [tokenStarts] at h
    rw [findStart]
    cases k with
    | zero =>
      rw [List.get?_cons_zero] at h
      injection h with h2
      rw [if_pos h2, Nat.add_zero]
    | succ k' =>
      rw [List.get?_cons_succ] at h
      have hgt : c < start := by
        have hmem := List.get?_mem h
        have := tokenStarts_ge rest (c + (surf t).length + 1) start hmem
        omega
      rw [if_neg (by omega)]
      rw [ih _ (i0 + 1) k' h]
      rw [show i0 + 1 + k' = i0 + (k' + 1) by omega]

lemma findStart_some_get (start : Nat) : ∀ (toks : List Token) (c i0 i : Nat),
    findStart start toks c i0 = some i →
    i0 ≤ i ∧ (tokenStarts toks c).get? (i - i0) = some start := by
  intro toks
  induction toks with
  | nil => intro c i0 i h; simp [findStart] at h
  | cons t rest ih =>
    intro c i0 i h
    rw [findStart] at h
    rw [tokenStarts]
    by_cases hc : c = start
    · rw [if_pos hc] at h
      injection h with h2
      subst h2
      simp [hc]
    · rw [if_neg hc] at h
      have := ih _ (i0 + 1) i h
      have hle : i0 + 1 ≤ i := this.1
      refine ⟨by omega, ?_⟩
      rw [show i - i0 = (i - (i0 + 1)) + 1 by omega, List.get?_cons_succ]
      exact this.2

lemma findEndGo_stops (tokens : List Token) (i : Nat) (original : Str)
    (fuel j : Nat) (heq : pyJoin ((pySlice tokens i j).map surf) = original) :
    findEndGo tokens i original fuel j = j := by
  cases fuel with
  | zero => rfl
  | succ f => rw [findEndGo, if_pos heq]

lemma findEndGo_reach (tokens : List Token) (i : Nat) (original : Str) :
    ∀ (n j0 j : Nat), j = j0 + n →
      (∀ j', j0 ≤ j' → j' < j →
        pyJoin ((pySlice tokens i j').map surf) ≠ original) →
      pyJoin ((pySlice tokens i j).map surf) = original →
      ∀ fuel, j ≤ j0 + fuel →
      findEndGo tokens i original fuel j0 = j := by
  intro n
  induction n with
  | zero =>
    intro j0 j hj hfail heq fuel hfuel
    have hj0 : j = j0 := by omega
    rw [hj0] at heq ⊢
    exact findEndGo_stops tokens i original fuel j0 heq
  | succ n' ih =>
    intro j0 j hj hfail heq fuel hfuel
    have hne : pyJoin ((pySlice tokens i j0).map surf) ≠ original :=
      hfail j0 (le_refl _) (by omega)
    cases fuel with
    | zero => omega
    | succ f =>
      rw [findEndGo, if_neg hne]
      exact ih (j0 + 1) j (by omega)
        (fun j' h1 h2 => hfail j' (by omega) h2) heq f (by omega)

lemma findEndGo_all_fail (tokens : List Token) (i : Nat) (original : Str) :
    ∀ (fuel j0 : Nat), j0 + fuel = tokens.length →
      (∀ j', j0 ≤ j' → j' < tokens.length →
        pyJoin ((pySlice tokens i j').map surf) ≠ original) →
      findEndGo tokens i original fuel j0 = tokens.length := by
  intro fuel
  induction fuel with
  | zero => intro j0 h _; rw [findEndGo]; omega
  | succ f ih =>
    intro j0 h hfail
    rw [findEndGo, if_neg (hfail j0 (le_refl _) (by omega))]
    exact ih (j0 + 1) (by omega) (fun j' h1 h2 => hfail j' (by omega) h2)

lemma tokenStarts_get0 (toks : List Token) (k : Nat) (hk : k < toks.length) :
    (tokenStarts toks 0).get? k = some (weightOf (toks.take k)) := by
  rw [tokenStarts_get toks 0 k hk, Nat.zero_add]

lemma findStart_of_get0 {toks : List Token} {s i : Nat}
    (h : (tokenStarts toks 0).get? i = some s) :
    findStart s toks 0 0 = some i := by
  have := findStart_of_get s toks 0 0 i h
  rwa [Nat.zero_add] at this

/-- Step characterization, skip case 1: when the match's start offset is
not a token start, the cursor walk exhausts the tokens and the match is
skipped. -/
lemma stepMatch_skip_start (sid S : Str) (toks : List Token) (m : Nat × Nat)
    (h : m.1 ∉ tokenStarts toks 0) : stepMatch sid S toks m = .ok toks := by
  unfold stepMatch
  rw [(findStart_none_iff m.1 toks 0 0).mpr h]

/-- Step characterization, skip case 2: when the match's start is the
`i`-th token start but the target offset past the matched substring is not
a token start, the `j` search exhausts the tokens and the match is
skipped. -/
lemma stepMatch_skip_end (sid S : Str) (toks : List Token) (m : Nat × Nat)
    (hS : sentenceOf toks = S) (i : Nat)
    (hi : (tokenStarts toks 0).get? i = some m.1)
    (htgt : (m.1 + (pySubstr S m.1 m.2).length + 1) ∉ tokenStarts toks 0) :
    stepMatch sid S toks m = .ok toks := by
  unfold stepMatch
  rw [findStart_of_get0 hi]
  dsimp only
  have hilen : i < toks.length := by
    have := get?_some_lt hi
    rwa [tokenStarts_length] at this
  have hws : weightOf (toks.take i) = m.1 := by
    have h2 := tokenStarts_get0 toks i hilen
    rw [h2] at hi
    injection hi
  have hfe : findEnd toks i (pySubstr S m.1 m.2) (i + 1) = toks.length := by
    unfold findEnd
    apply findEndGo_all_fail toks i _ (toks.length - (i + 1)) (i + 1) (by omega)
    intro j' h1 h2 heq
    have hiff := slice_join_eq_iff toks S hS i j' m.2 (by omega) (by omega)
    rw [hws] at hiff
    have hwj := hiff.mp heq
    exact htgt (by
      rw [← hwj]
      exact List.get?_mem (tokenStarts_get0 toks j' h2))
  rw [hfe, if_pos rfl]

/-- Step characterization, merge case: when both the match's start offset
and the target offset past the matched substring are token starts (at
indices `i < j`), the step merges `tokens[i:j]` — or aborts with the
ambiguous-tag error. -/
lemma stepMatch_merge_char (sid S : Str) (toks : List Token) (m : Nat × Nat)
    (hS : sentenceOf toks = S) (i j : Nat)
    (hi : (tokenStarts toks 0).get? i = some m.1)
    (hj : (tokenStarts toks 0).get? j =
      some (m.1 + (pySubstr S m.1 m.2).length + 1)) :
    stepMatch sid S toks m =
      (match resolveTag (pySlice toks i j) with
       | none => .error .ambiguousTag
       | some tag => .ok (toks.take i ++
           [mkMergedToken sid (pySubstr S m.1 m.2) (pyPosOf (toks.headD [])) tag] ++
           toks.drop j)) := by
  have hilen : i < toks.length := by
    have := get?_some_lt hi
    rwa [tokenStarts_length] at this
  have hjlen : j < toks.length := by
    have := get?_some_lt hj
    rwa [tokenStarts_length] at this
  have hij : i < j :=
    pairwise_lt_index (tokenStarts_pairwise toks 0) hi hj (by omega)
  have hws : weightOf (toks.take i) = m.1 := by
    have h2 := tokenStarts_get0 toks i hilen
    rw [h2] at hi
    injection hi
  have hwj : weightOf (toks.take j) =
      m.1 + (pySubstr S m.1 m.2).length + 1 := by
    have h2 := tokenStarts_get0 toks j hjlen
    rw [h2] at hj
    injection hj
  have heq : pyJoin ((pySlice toks i j).map surf) = pySubstr S m.1 m.2 := by
    have hiff := slice_join_eq_iff toks S hS i j m.2 hij (by omega)
    rw [hws] at hiff
    exact hiff.mpr hwj
  have hfe : findEnd toks i (pySubstr S m.1 m.2) (i + 1) = j := by
    unfold findEnd
    apply findEndGo_reach toks i _ (j - (i + 1)) (i + 1) j (by omega) ?_ heq
      (toks.length - (i + 1)) (by omega)
    intro j' h1 h2 heq'
    have hiff := slice_join_eq_iff toks S hS i j' m.2 (by omega) (by omega)
    rw [hws] at hiff
    have hwj' := hiff.mp heq'
    have hlt : weightOf (toks.take j') < weightOf (toks.take j) :=
      pairwise_index_lt (tokenStarts_pairwise toks 0)
        (tokenStarts_get0 toks j' (by omega)) (tokenStarts_get0 toks j hjlen) h2
    omega
  unfold stepMatch
  rw [findStart_of_get0 hi]
  dsimp only
  rw [hfe, if_neg (by omega)]
  cases htag : resolveTag (pySlice toks i j) with
  | none => rfl
  | some tag =>
    dsimp only
    have hassert : sentenceOf (toks.take i ++
        [mkMergedToken sid (pySubstr S m.1 m.2) (pyPosOf (toks.headD [])) tag] ++
        toks.drop j) = S := by
      rw [sentenceOf_merge (toks.take i) (pySlice toks i j) (toks.drop j)
        (mkMergedToken sid (pySubstr S m.1 m.2) (pyPosOf (toks.headD [])) tag)
        (pySlice_ne_nil hilen hij)
        (by rw [surf_mkMergedToken]; exact heq.symm)]
      rw [take_slice_drop toks i j (by omega)]
      exact hS
    rw [if_pos hassert]

/-- Analysis of a successful step: it either leaves the tokens unchanged,
or merges a covered range determined by the start and target offsets both
being token starts. -/
lemma stepMatch_analysis (sid S : Str) (toks out : List Token) (m : Nat × Nat)
    (hS : sentenceOf toks = S) (hok : stepMatch sid S toks m = .ok out) :
    out = toks ∨
    ∃ i j tag, (tokenStarts toks 0).get? i = some m.1 ∧
      (tokenStarts toks 0).get? j =
        some (m.1 + (pySubstr S m.1 m.2).length + 1) ∧
      resolveTag (pySlice toks i j) = some tag ∧
      out = toks.take i ++
        [mkMergedToken sid (pySubstr S m.1 m.2) (pyPosOf (toks.headD [])) tag] ++
        toks.drop j := by
  by_cases hs : m.1 ∈ tokenStarts toks 0
  · rcases List.mem_iff_get?.mp hs with ⟨i, hi⟩
    by_cases ht : (m.1 + (pySubstr S m.1 m.2).length + 1) ∈ tokenStarts toks 0
    · rcases List.mem_iff_get?.mp ht with ⟨j, hj⟩
      have hchar := stepMatch_merge_char sid S toks m hS i j hi hj
      rw [hchar] at hok
      cases htag : resolveTag (pySlice toks i j) with
      | none =>
        rw [htag] at hok
        exact Except.noConfusion hok
      | some tag =>
        rw [htag] at hok
        injection hok with h2
        exact Or.inr ⟨i, j, tag, hi, hj, htag, h2.symm⟩
    · have hskip := stepMatch_skip_end sid S toks m hS i hi ht
      rw [hskip] at hok
      injection hok with h2
      exact Or.inl h2.symm
  · have hskip := stepMatch_skip_start sid S toks m hs
    rw [hskip] at hok
    injection hok with h2
    exact Or.inl h2.symm

lemma pyPosOf_mkMergedToken (sid o p t : Str) :
    pyPosOf (mkMergedToken sid o p t) = p := rfl

lemma pyTagOf_mkMergedToken (sid o p t : Str) :
    pyTagOf (mkMergedToken sid o p t) = t := rfl

lemma tokenStarts_take_eq (toks : List Token) (i : Nat) (hi : i ≤ toks.length) :
    (tokenStarts toks 0).take i = tokenStarts (toks.take i) 0 := by
  conv_lhs => rw [← List.take_append_drop i toks]
  rw [tokenStarts_append]
  exact List.take_left' (by rw [tokenStarts_length, List.length_take]; omega)

lemma tokenStarts_drop_eq (toks : List Token) (j : Nat) :
    (tokenStarts toks 0).drop j =
      tokenStarts (toks.drop j) (weightOf (toks.take j)) := by
  by_cases hj : j ≤ toks.length
  · conv_lhs => rw [← List.take_append_drop j toks]
    rw [tokenStarts_append]
    rw [show (tokenStarts (toks.drop j) (0 + weightOf (toks.take j))) =
      tokenStarts (toks.drop j) (weightOf (toks.take j)) by rw [Nat.zero_add]]
    exact List.drop_left' (by rw [tokenStarts_length, List.length_take]; omega)
  · rw [List.drop_eq_nil_iff.mpr (by rw [tokenStarts_length]; omega),
      List.drop_eq_nil_iff.mpr (by omega)]
    rfl

lemma tokenStarts_take_succ (toks : List Token) (i : Nat) (hi : i < toks.length) :
    (tokenStarts toks 0).take (i + 1) =
      tokenStarts (toks.take i) 0 ++ [weightOf (toks.take i)] := by
  have hlen : (tokenStarts (toks.take i) 0).length = i := by
    rw [tokenStarts_length, List.length_take]
    omega
  conv_lhs => rw [← List.take_append_drop i toks]
  rw [tokenStarts_append, List.take_append_eq_append_take]
  rw [List.take_of_length_le (by omega)]
  congr 1
  rw [hlen, show i + 1 - i = 1 by omega, Nat.zero_add]
  rcases hd : toks.drop i with _ | ⟨t, rest⟩
  · rw [List.drop_eq_nil_iff] at hd
    omega
  · rw [tokenStarts, List.take_succ_cons, List.take_zero]

/-- The token starts of a merged list: the starts through the merge point
survive, the interior starts of the covered range vanish, and the suffix
starts are unchanged. -/
lemma merged_tokenStarts (toks : List Token) (i j : Nat) (M : Token)
    (hij : i < j) (hjlen : j ≤ toks.length)
    (hw : (surf M).length + 1 + weightOf (toks.take i) = weightOf (toks.take j)) :
    tokenStarts (toks.take i ++ [M] ++ toks.drop j) 0 =
      (tokenStarts toks 0).take (i + 1) ++ (tokenStarts toks 0).drop j := by
  have hilen : i < toks.length := by omega
  rw [tokenStarts_append (toks.take i ++ [M]) (toks.drop j)]
  rw [tokenStarts_append (toks.take i) [M]]
  rw [tokenStarts_take_succ toks i hilen, tokenStarts_drop_eq toks j]
  rw [List.append_assoc, List.append_assoc]
  simp only [Nat.zero_add]
  congr 1
  rw [show tokenStarts [M] (weightOf (toks.take i)) =
    [weightOf (toks.take i)] from rfl]
  congr 2
  rw [weightOf_append, weightOf_cons,
    show weightOf ([] : List Token) = 0 from rfl]
  omega

lemma take_append_drop_sublist (l : List Nat) (a b : Nat) (hab : a ≤ b) :
    List.Sublist (l.take a ++ l.drop b) l := by
  conv_rhs => rw [← List.take_append_drop a l]
  refine List.Sublist.append (List.Sublist.refl _) ?_
  rw [show l.drop b = (l.drop a).drop (b - a) by rw [List.drop_drop]; congr 1; omega]
  exact List.drop_sublist _ _

/-- A successful step only removes token starts. -/
lemma stepMatch_starts_sublist (sid S : Str) (toks out : List Token)
    (m : Nat × Nat) (hS : sentenceOf toks = S)
    (hok : stepMatch sid S toks m = .ok out) :
    List.Sublist (tokenStarts out 0) (tokenStarts toks 0) := by
  rcases stepMatch_analysis sid S toks out m hS hok with rfl | ⟨i, j, tag, hi, hj, htag, rfl⟩
  · exact List.Sublist.refl _
  · have hilen : i < toks.length := by
      have := get?_some_lt hi
      rwa [tokenStarts_length] at this
    have hjlen : j < toks.length := by
      have := get?_some_lt hj
      rwa [tokenStarts_length] at this
    have hij : i < j :=
      pairwise_lt_index (tokenStarts_pairwise toks 0) hi hj (by omega)
    have hws : weightOf (toks.take i) = m.1 := by
      have h2 := tokenStarts_get0 toks i hilen
      rw [h2] at hi
      injection hi
    have hwj : weightOf (toks.take j) =
        m.1 + (pySubstr S m.1 m.2).length + 1 := by
      have h2 := tokenStarts_get0 toks j hjlen
      rw [h2] at hj
      injection hj
    rw [merged_tokenStarts toks i j _ hij (by omega)
      (by rw [surf_mkMergedToken]; omega)]
    exact take_append_drop_sublist _ (i + 1) j (by omega)

/-- A successful step preserves the POS field of the first token of the
sequence (`tokens[0][-2]`). -/
lemma stepMatch_posHead (sid S : Str) (toks out : List Token) (m : Nat × Nat)
    (hS : sentenceOf toks = S) (hok : stepMatch sid S toks m = .ok out) :
    pyPosOf (out.headD []) = pyPosOf (toks.headD []) := by
  rcases stepMatch_analysis sid S toks out m hS hok with rfl | ⟨i, j, tag, hi, hj, htag, rfl⟩
  · rfl
  · cases i with
    | zero =>
      rw [List.take_zero, List.nil_append, List.cons_append, List.headD_cons,
        pyPosOf_mkMergedToken]
    | succ i' =>
      have hilen : i' + 1 < toks.length := by
        have := get?_some_lt hi
        rwa [tokenStarts_length] at this
      cases toks with
      | nil => simp at hilen
      | cons t rest =>
        rw [List.take_succ_cons, List.cons_append, List.cons_append,
          List.headD_cons, List.headD_cons]

lemma pySubstr_eq_of_length_eq (S : Str) (s e e' : Nat)
    (h : (pySubstr S s e).length = (pySubstr S s e').length) :
    pySubstr S s e = pySubstr S s e' := by
  unfold pySubstr at h ⊢
  rw [List.drop_take, List.drop_take] at h ⊢
  rw [List.take_eq_take]
  simpa [List.length_take, List.length_drop] using h

lemma resolveTag_singleton (t : Token) : resolveTag [t] = some (pyTagOf t) := by
  unfold resolveTag dedupTags
  by_cases h : pyTagOf t = tagO
  · simp [h]
  · simp [h]

lemma pySlice_singleton (toks : List Token) (i : Nat) (t : Token)
    (h : toks.get? i = some t) : pySlice toks i (i + 1) = [t] := by
  unfold pySlice
  have hlen : i < toks.length := get?_some_lt h
  rw [show i + 1 - i = 1 by omega]
  rw [List.drop_eq_get_cons hlen]
  rw [List.get?_eq_get hlen] at h
  injection h with h2
  rw [h2, List.take_succ_cons, List.take_zero]

lemma take_get_drop_eq (toks : List Token) (i : Nat) (t : Token)
    (h : toks.get? i = some t) : toks.take i ++ [t] ++ toks.drop (i + 1) = toks := by
  have hlen : i < toks.length := get?_some_lt h
  rw [List.append_assoc, List.singleton_append]
  rw [List.get?_eq_get hlen] at h
  injection h with h2
  rw [← h2, ← List.drop_eq_get_cons hlen]
  exact List.take_append_drop i toks

lemma merged_get_lt (A : List Token) (M : Token) (C : List Token) (k : Nat)
    (hk : k < A.length) : (A ++ [M] ++ C).get? k = A.get? k := by
  rw [List.append_assoc, List.get?_append hk]

lemma merged_get_eq (A : List Token) (M : Token) (C : List Token) :
    (A ++ [M] ++ C).get? A.length = some M := by
  rw [List.append_assoc, List.get?_append_right (le_refl _)]
  simp

lemma merged_get_gt (A : List Token) (M : Token) (C : List Token) (k : Nat)
    (hk : A.length < k) :
    (A ++ [M] ++ C).get? k = C.get? (k - A.length - 1) := by
  rw [List.append_assoc, List.get?_append_right (by omega)]
  rw [List.singleton_append]
  rw [show k - A.length = (k - A.length - 1) + 1 by omega]
  rw [List.get?_cons_succ]
  congr 1

lemma merge_indices_facts (toks : List Token) (S : Str) (m : Nat × Nat) (i j : Nat)
    (hi : (tokenStarts toks 0).get? i = some m.1)
    (hj : (tokenStarts toks 0).get? j =
      some (m.1 + (pySubstr S m.1 m.2).length + 1)) :
    i < toks.length ∧ j < toks.length ∧ i < j ∧
    weightOf (toks.take i) = m.1 ∧
    weightOf (toks.take j) = m.1 + (pySubstr S m.1 m.2).length + 1 := by
  have hilen : i < toks.length := by
    have := get?_some_lt hi
    rwa [tokenStarts_length] at this
  have hjlen : j < toks.length := by
    have := get?_some_lt hj
    rwa [tokenStarts_length] at this
  have hij : i < j :=
    pairwise_lt_index (tokenStarts_pairwise toks 0) hi hj (by omega)
  have hws : weightOf (toks.take i) = m.1 := by
    have h2 := tokenStarts_get0 toks i hilen
    rw [h2] at hi
    injection hi
  have hwj : weightOf (toks.take j) = m.1 + (pySubstr S m.1 m.2).length + 1 := by
    have h2 := tokenStarts_get0 toks j hjlen
    rw [h2] at hj
    injection hj
  exact ⟨hilen, hjlen, hij, hws, hwj⟩

lemma merged_starts_get_le (st : List Nat) (i j k : Nat) (hk : k ≤ i)
    (hi1 : i + 1 ≤ st.length) :
    (st.take (i + 1) ++ st.drop j).get? k = st.get? k := by
  rw [List.get?_append (by rw [List.length_take]; omega)]
  exact List.get?_take (by omega)

lemma merged_starts_get_gt (st : List Nat) (i j k : Nat) (hk : i < k)
    (hi1 : i + 1 ≤ st.length) :
    (st.take (i + 1) ++ st.drop j).get? k = st.get? (j + (k - i - 1)) := by
  rw [List.get?_append_right (by rw [List.length_take]; omega)]
  rw [List.get?_drop]
  congr 1
  rw [List.length_take]
  omega

/-- A successful step preserves the merged-span invariant. -/
lemma stepMatch_region (sid S : Str) (toks out : List Token) (m : Nat × Nat)
    (hS : sentenceOf toks = S) (hok : stepMatch sid S toks m = .ok out)
    (s e : Nat) (v : Str) (hv : pyPosOf (toks.headD []) = v)
    (hreg : RegionOK s (s + (pySubstr S s e).length + 1) sid
      (pySubstr S s e) v toks) :
    RegionOK s (s + (pySubstr S s e).length + 1) sid (pySubstr S s e) v out := by
  have hsub := stepMatch_starts_sublist sid S toks out m hS hok
  rcases stepMatch_analysis sid S toks out m hS hok with rfl |
    ⟨i, j, tg0, hi, hj, htag, rfl⟩
  · exact hreg
  · obtain ⟨hilen, hjlen, hij, hws, hwj⟩ := merge_indices_facts toks S m i j hi hj
    have hstarts : tokenStarts (toks.take i ++
        [mkMergedToken sid (pySubstr S m.1 m.2) (pyPosOf (toks.headD [])) tg0] ++
        toks.drop j) 0 =
        (tokenStarts toks 0).take (i + 1) ++ (tokenStarts toks 0).drop j :=
      merged_tokenStarts toks i j _ hij (by omega)
        (by rw [surf_mkMergedToken]; omega)
    have hstlen : i + 1 ≤ (tokenStarts toks 0).length := by
      rw [tokenStarts_length]
      omega
    have htklen : (toks.take i).length = i := by
      rw [List.length_take]
      omega
    constructor
    · intro c hc
      exact hreg.1 c (hsub.mem hc)
    · intro hsmem htmem k hk
      rw [hstarts] at hk
      have hsmem' : s ∈ tokenStarts toks 0 := hsub.mem hsmem
      have htmem' : s + (pySubstr S s e).length + 1 ∈ tokenStarts toks 0 :=
        hsub.mem htmem
      by_cases hki : k ≤ i
      · rw [merged_starts_get_le _ i j k hki hstlen] at hk
        by_cases hkeq : k = i
        · subst hkeq
          have hsm : m.1 = s := by
            rw [hk] at hi
            injection hi with h3
            exact h3.symm
          subst hsm
          obtain ⟨tg1, htg1⟩ := hreg.2 hsmem' htmem' k hk
          have houtk : (toks.take k ++
              [mkMergedToken sid (pySubstr S m.1 m.2)
                (pyPosOf (toks.headD [])) tg0] ++
              toks.drop j).get? k = some (mkMergedToken sid (pySubstr S m.1 m.2)
                (pyPosOf (toks.headD [])) tg0) := by
            have h2 := merged_get_eq (toks.take k)
              (mkMergedToken sid (pySubstr S m.1 m.2)
                (pyPosOf (toks.headD [])) tg0) (toks.drop j)
            rwa [htklen] at h2
          -- show that the merge target offset equals the region target
          rcases List.mem_iff_get?.mp htmem with ⟨kt, hkt⟩
          rw [hstarts] at hkt
          have houtpw : ((tokenStarts toks 0).take (k + 1) ++
              (tokenStarts toks 0).drop j).Pairwise (· < ·) :=
            (tokenStarts_pairwise toks 0).sublist
              (take_append_drop_sublist _ (k + 1) j (by omega))
          have hsout : ((tokenStarts toks 0).take (k + 1) ++
              (tokenStarts toks 0).drop j).get? k = some m.1 := by
            rw [merged_starts_get_le _ k j k (le_refl _) hstlen]
            exact hk
          have hkti : k < kt :=
            pairwise_lt_index houtpw hsout hkt (by omega)
          have hout_k1 : ((tokenStarts toks 0).take (k + 1) ++
              (tokenStarts toks 0).drop j).get? (k + 1) =
              some (m.1 + (pySubstr S m.1 m.2).length + 1) := by
            rw [merged_starts_get_gt _ k j (k + 1) (by omega) hstlen]
            rw [show j + (k + 1 - k - 1) = j by omega]
            exact hj
          have htgt_ge : m.1 + (pySubstr S m.1 m.2).length + 1 ≤
              m.1 + (pySubstr S m.1 e).length + 1 := by
            rcases Nat.eq_or_lt_of_le (show k + 1 ≤ kt by omega) with heq2 | hlt2
            · rw [← heq2] at hkt
              rw [hkt] at hout_k1
              injection hout_k1 with h3
              omega
            · have := pairwise_index_lt houtpw hout_k1 hkt hlt2
              omega
          have htgt_le : m.1 + (pySubstr S m.1 e).length + 1 ≤
              m.1 + (pySubstr S m.1 m.2).length + 1 := by
            have htgt'mem : m.1 + (pySubstr S m.1 m.2).length + 1 ∈
                tokenStarts toks 0 := List.get?_mem hj
            have hni := hreg.1 _ htgt'mem
            omega
          have horig : pySubstr S m.1 m.2 = pySubstr S m.1 e :=
            pySubstr_eq_of_length_eq S m.1 m.2 e (by omega)
          refine ⟨tg0, ?_⟩
          rw [houtk, horig, hv]
        · have hkil : k < i := by omega
          obtain ⟨tg, htg⟩ := hreg.2 hsmem' htmem' k hk
          refine ⟨tg, ?_⟩
          rw [merged_get_lt _ _ _ k (by omega), List.get?_take hkil]
          exact htg
      · push_neg at hki
        rw [merged_starts_get_gt _ i j k hki hstlen] at hk
        obtain ⟨tg, htg⟩ := hreg.2 hsmem' htmem' _ hk
        refine ⟨tg, ?_⟩
        rw [merged_get_gt _ _ _ k (by omega)]
        rw [List.get?_drop, htklen]
        exact htg

/-- Re-running a match step over a token list carrying that match's
merged-span invariant leaves the list unchanged. -/
lemma stepMatch_noop (sid S : Str) (toks : List Token) (m : Nat × Nat)
    (hS : sentenceOf toks = S) (v : Str) (hv : pyPosOf (toks.headD []) = v)
    (hreg : RegionOK m.1 (m.1 + (pySubstr S m.1 m.2).length + 1) sid
      (pySubstr S m.1 m.2) v toks) :
    stepMatch sid S toks m = .ok toks := by
  by_cases hs : m.1 ∈ tokenStarts toks 0
  · by_cases ht : (m.1 + (pySubstr S m.1 m.2).length + 1) ∈ tokenStarts toks 0
    · rcases List.mem_iff_get?.mp hs with ⟨i, hi⟩
      rcases List.mem_iff_get?.mp ht with ⟨j, hj⟩
      obtain ⟨hilen, hjlen, hij, hws, hwj⟩ := merge_indices_facts toks S m i j hi hj
      have hj1 : j = i + 1 := by
        by_contra hne
        have hi1len : i + 1 < toks.length := by omega
        have hmid := tokenStarts_get0 toks (i + 1) hi1len
        have h1 : m.1 < weightOf (toks.take (i + 1)) :=
          pairwise_index_lt (tokenStarts_pairwise toks 0) hi hmid (by omega)
        have h2 : weightOf (toks.take (i + 1)) <
            m.1 + (pySubstr S m.1 m.2).length + 1 :=
          pairwise_index_lt (tokenStarts_pairwise toks 0) hmid hj (by omega)
        exact hreg.1 _ (List.get?_mem hmid) ⟨h1, h2⟩
      subst hj1
      obtain ⟨tg, htg⟩ := hreg.2 hs ht i hi
      rw [stepMatch_merge_char sid S toks m hS i (i + 1) hi hj]
      rw [pySlice_singleton toks i _ htg, resolveTag_singleton,
        pyTagOf_mkMergedToken]
      dsimp only
      congr 1
      rw [hv]
      exact take_get_drop_eq toks i _ htg
    · rcases List.mem_iff_get?.mp hs with ⟨i, hi⟩
      exact stepMatch_skip_end sid S toks m hS i hi ht
  · exact stepMatch_skip_start sid S toks m hs

/-- A fresh merge establishes its own merged-span invariant. -/
lemma merged_region (sid S : Str) (toks : List Token) (m : Nat × Nat)
    (i j : Nat) (tg0 : Str)
    (hi : (tokenStarts toks 0).get? i = some m.1)
    (hj : (tokenStarts toks 0).get? j =
      some (m.1 + (pySubstr S m.1 m.2).length + 1)) :
    RegionOK m.1 (m.1 + (pySubstr S m.1 m.2).length + 1) sid (pySubstr S m.1 m.2)
      (pyPosOf (toks.headD []))
      (toks.take i ++ [mkMergedToken sid (pySubstr S m.1 m.2)
        (pyPosOf (toks.headD [])) tg0] ++ toks.drop j) := by
  obtain ⟨hilen, hjlen, hij, hws, hwj⟩ := merge_indices_facts toks S m i j hi hj
  have hstarts := merged_tokenStarts toks i j
    (mkMergedToken sid (pySubstr S m.1 m.2) (pyPosOf (toks.headD [])) tg0)
    hij (by omega) (by rw [surf_mkMergedToken]; omega)
  have hstlen : i + 1 ≤ (tokenStarts toks 0).length := by
    rw [tokenStarts_length]
    omega
  constructor
  · intro c hc
    rw [hstarts] at hc
    rcases List.mem_append.mp hc with hc | hc
    · rcases List.mem_iff_get?.mp hc with ⟨k, hk⟩
      have hkl : k < i + 1 := by
        have := get?_some_lt hk
        rw [List.length_take] at this
        omega
      rw [List.get?_take hkl] at hk
      intro hcon
      rcases Nat.lt_or_ge k i with h4 | h4
      · have := pairwise_index_lt (tokenStarts_pairwise toks 0) hk hi h4
        omega
      · have hki2 : k = i := by omega
        subst hki2
        rw [hk] at hi
        injection hi with h5
        omega
    · rcases List.mem_iff_get?.mp hc with ⟨k, hk⟩
      rw [List.get?_drop] at hk
      intro hcon
      rcases Nat.eq_or_lt_of_le (Nat.le_add_right j k) with h4 | h4
      · rw [← h4] at hk
        rw [hk] at hj
        injection hj with h5
        omega
      · have := pairwise_index_lt (tokenStarts_pairwise toks 0) hj hk h4
        omega
  · intro hsmem htmem k hk
    rw [hstarts] at hk
    by_cases hki : k ≤ i
    · rw [merged_starts_get_le _ i j k hki hstlen] at hk
      have hkeq : k = i := by
        by_contra hne
        have h4 : k < i := by omega
        have := pairwise_index_lt (tokenStarts_pairwise toks 0) hk hi h4
        omega
      subst hkeq
      refine ⟨tg0, ?_⟩
      have h2 := merged_get_eq (toks.take k)
        (mkMergedToken sid (pySubstr S m.1 m.2) (pyPosOf (toks.headD [])) tg0)
        (toks.drop j)
      rwa [List.length_take, min_eq_left (by omega)] at h2
    · push_neg at hki
      rw [merged_starts_get_gt _ i j k hki hstlen] at hk
      exfalso
      rcases Nat.eq_or_lt_of_le (Nat.le_add_right j (k - i - 1)) with h4 | h4
      · rw [← h4] at hk
        rw [hk] at hj
        injection hj with h5
        omega
      · have := pairwise_index_lt (tokenStarts_pairwise toks 0) hj hk h4
        omega

lemma foldlM_okSteps (sid S : Str) :
    ∀ (ms : List ((Nat × Nat) × Str × Str)) (toks out : List Token),
      List.foldlM (fun t (m : (Nat × Nat) × Str × Str) =>
        stepMatch sid S t m.1) toks ms = .ok out →
      OkSteps sid S toks out := by
  intro ms
  induction ms with
  | nil =>
    intro toks out h
    injection h with h2
    rw [h2]
    exact OkSteps.refl out
  | cons m rest ih =>
    intro toks out h
    rw [List.foldlM_cons] at h
    cases hs : stepMatch sid S toks m.1 with
    | error e =>
      rw [hs] at h
      exact Except.noConfusion h
    | ok mid =>
      rw [hs] at h
      exact OkSteps.step toks mid out m.1 hs (ih mid out h)

lemma okSteps_sentence (sid S : Str) {toks out : List Token}
    (h : OkSteps sid S toks out) : sentenceOf toks = S → sentenceOf out = S := by
  induction h with
  | refl t => exact id
  | step t mid o m hstep hrest ih =>
    intro hS
    exact ih ((stepMatch_props sid S t m hS).2 mid hstep).1

lemma okSteps_posHead (sid S : Str) {toks out : List Token}
    (h : OkSteps sid S toks out) : sentenceOf toks = S →
    pyPosOf (out.headD []) = pyPosOf (toks.headD []) := by
  induction h with
  | refl t => intro _; rfl
  | step t mid o m hstep hrest ih =>
    intro hS
    rw [ih ((stepMatch_props sid S t m hS).2 mid hstep).1]
    exact stepMatch_posHead sid S t mid m hS hstep

lemma okSteps_starts_sublist (sid S : Str) {toks out : List Token}
    (h : OkSteps sid S toks out) : sentenceOf toks = S →
    List.Sublist (tokenStarts out 0) (tokenStarts toks 0) := by
  induction h with
  | refl t => intro _; exact List.Sublist.refl _
  | step t mid o m hstep hrest ih =>
    intro hS
    exact (ih ((stepMatch_props sid S t m hS).2 mid hstep).1).trans
      (stepMatch_starts_sublist sid S t mid m hS hstep)

lemma okSteps_region (sid S : Str) {toks out : List Token}
    (h : OkSteps sid S toks out) :
    ∀ (s e : Nat) (v : Str), sentenceOf toks = S →
      pyPosOf (toks.headD []) = v →
      RegionOK s (s + (pySubstr S s e).length + 1) sid (pySubstr S s e) v toks →
      RegionOK s (s + (pySubstr S s e).length + 1) sid (pySubstr S s e) v out := by
  induction h with
  | refl t => intro s e v _ _ hreg; exact hreg
  | step t mid o m hstep hrest ih =>
    intro s e v hS hv hreg
    exact ih s e v ((stepMatch_props sid S t m hS).2 mid hstep).1
      (by rw [stepMatch_posHead sid S t mid m hS hstep]; exact hv)
      (stepMatch_region sid S t mid m hS hstep s e v hv hreg)

/-- The key step of idempotence: after a successful step from `toks` to
`mid` and any further successful steps from `mid` to `y`, re-running the
same match on `y` leaves `y` unchanged. -/
lemma stepMatch_replay (sid S : Str) (toks mid y : List Token) (sp : Nat × Nat)
    (hS : sentenceOf toks = S)
    (hs : stepMatch sid S toks sp = .ok mid)
    (hsteps : OkSteps sid S mid y) :
    stepMatch sid S y sp = .ok y := by
  have hmidS : sentenceOf mid = S := ((stepMatch_props sid S toks sp hS).2 mid hs).1
  have hyS : sentenceOf y = S := okSteps_sentence sid S hsteps hmidS
  have hysub : List.Sublist (tokenStarts y 0) (tokenStarts mid 0) :=
    okSteps_starts_sublist sid S hsteps hmidS
  by_cases hsm : sp.1 ∈ tokenStarts toks 0
  · rcases List.mem_iff_get?.mp hsm with ⟨i, hi⟩
    by_cases htm : (sp.1 + (pySubstr S sp.1 sp.2).length + 1) ∈ tokenStarts toks 0
    · -- merge case: establish and transport the merged-span invariant
      rcases List.mem_iff_get?.mp htm with ⟨j, hj⟩
      have hchar := stepMatch_merge_char sid S toks sp hS i j hi hj
      rw [hchar] at hs
      cases htag : resolveTag (pySlice toks i j) with
      | none =>
        rw [htag] at hs
        exact Except.noConfusion hs
      | some tg0 =>
        rw [htag] at hs
        injection hs with hmid
        have hsOk : stepMatch sid S toks sp = .ok mid := by
          rw [hchar, htag]
          dsimp only
          rw [hmid]
        have hreg0 := merged_region sid S toks sp i j tg0 hi hj
        rw [hmid] at hreg0
        have hposm : pyPosOf (mid.headD []) = pyPosOf (toks.headD []) :=
          stepMatch_posHead sid S toks mid sp hS hsOk
        have hregy := okSteps_region sid S hsteps sp.1 sp.2
          (pyPosOf (toks.headD [])) hmidS hposm hreg0
        exact stepMatch_noop sid S y sp hyS (pyPosOf (toks.headD []))
          (by rw [okSteps_posHead sid S hsteps hmidS, hposm]) hregy
    · -- skip: target offset is not a token start, and stays so
      have hskip := stepMatch_skip_end sid S toks sp hS i hi htm
      rw [hskip] at hs
      injection hs with hmid
      have hsub2 : List.Sublist (tokenStarts y 0) (tokenStarts toks 0) := by
        rw [hmid]
        exact hysub
      have htm_y : (sp.1 + (pySubstr S sp.1 sp.2).length + 1) ∉ tokenStarts y 0 := by
        intro hmem
        exact htm (hsub2.mem hmem)
      by_cases hsy : sp.1 ∈ tokenStarts y 0
      · rcases List.mem_iff_get?.mp hsy with ⟨iy, hiy⟩
        exact stepMatch_skip_end sid S y sp hyS iy hiy htm_y
      · exact stepMatch_skip_start sid S y sp hsy
  · -- skip: the start offset is not a token start, and stays so
    have hskip := stepMatch_skip_start sid S toks sp hsm
    rw [hskip] at hs
    injection hs with hmid
    have hsub2 : List.Sublist (tokenStarts y 0) (tokenStarts toks 0) := by
      rw [hmid]
      exact hysub
    have hsm_y : sp.1 ∉ tokenStarts y 0 := by
      intro hmem
      exact hsm (hsub2.mem hmem)
    exact stepMatch_skip_start sid S y sp hsm_y

/-- Folding the same match list over the result of a successful fold
leaves it unchanged. -/
lemma foldSteps_idem (sid S : Str) :
    ∀ (ms : List ((Nat × Nat) × Str × Str)) (toks y : List Token),
      sentenceOf toks = S →
      List.foldlM (fun t (m : (Nat × Nat) × Str × Str) =>
        stepMatch sid S t m.1) toks ms = .ok y →
      List.foldlM (fun t (m : (Nat × Nat) × Str × Str) =>
        stepMatch sid S t m.1) y ms = .ok y := by
  intro ms
  induction ms with
  | nil =>
    intro toks y hS h
    rfl
  | cons m rest ih =>
    intro toks y hS h
    rw [List.foldlM_cons] at h ⊢
    cases hs : stepMatch sid S toks m.1 with
    | error e =>
      rw [hs] at h
      exact Except.noConfusion h
    | ok mid =>
      rw [hs] at h
      have hmidS : sentenceOf mid = S :=
        ((stepMatch_props sid S toks m.1 hS).2 mid hs).1
      have hsteps : OkSteps sid S mid y := foldlM_okSteps sid S rest mid y h
      have hkey : stepMatch sid S y m.1 = .ok y :=
        stepMatch_replay sid S toks mid y m.1 hS hs hsteps
      rw [hkey]
      exact ih mid y hmidS h

/-- C8.  `normalize_numerical_fes` is idempotent: realigning an already
realigned token sequence (same normalizer and sentence id) returns it
unchanged. -/
theorem normalizeNumericalFes_idempotent (rules : Rules) (sid : Str)
    (tokens y : List Token)
    (h : normalizeNumericalFes rules sid tokens = .ok y) :
    normalizeNumericalFes rules sid y = .ok y := by
  have hS : sentenceOf y = sentenceOf tokens := by
    have hp := foldSteps_props sid (sentenceOf tokens)
      (normalizeMany rules (sentenceOf tokens)) tokens rfl
    exact (hp.2 y h).1
  unfold normalizeNumericalFes at h ⊢
  rw [hS]
  exact foldSteps_idem sid (sentenceOf tokens)
    (normalizeMany rules (sentenceOf tokens)) tokens y rfl h

theorem normalizeNumericalFes_idempotent_witness :
    normalizeNumericalFes demoRules3 ("s1".toList)
      [tokBorn, tokMerged1920, tokX] = .ok [tokBorn, tokMerged1920, tokX] :=
  normalizeNumericalFes_idempotent demoRules3 ("s1".toList)
    [tokBorn, tok1920O, tokX] [tokBorn, tokMerged1920, tokX] (by decide)

end StrepHit
